import Mathlib

/-!
Apatite saturation along a pMELTS cooling path: a shallow embedding of
`meltsTApatiteParallel.c`.

Numbers.  A C `double` is idealised as an exact real number or the NaN
sentinel (`Dbl`).  Rounding, overflow and the infinities are not modelled;
a division by an exact zero follows the convention of the real field.  The
comparison operators on `Dbl` follow IEEE 754: every comparison with NaN is
false.  The values read from the imported MELTS table are real numbers.
The closed forms use the real logarithm and exponential, so the definitions
that depend on them are not executable; concrete tables are evaluated by
proof, with bounds on `Real.log 2`.

Processes.  The root rank and the workers are modelled as one system with
a step relation; the order in which the ranks move is arbitrary.  The
external simulator is a parameter of the worker and is taken to return.
-/

namespace MeltsTApatite

/-! ## The double model -/

/-- A C `double`: an exact real number, or NaN. -/
inductive Dbl where
  | num : ℝ → Dbl
  | nan : Dbl

namespace Dbl

/-- The C comparison `a > b`; false as soon as one side is NaN. -/
def gt : Dbl → Dbl → Prop
  | num x, num y => x > y
  | _, _ => False

/-- The C comparison `a >= b`; false as soon as one side is NaN. -/
def ge : Dbl → Dbl → Prop
  | num x, num y => x ≥ y
  | _, _ => False

/-- The C comparison `a == 0`; false for NaN. -/
def eqZero : Dbl → Prop
  | num x => x = 0
  | nan => False

end Dbl

/-! ## The closed-form saturation functions (source lines 58-71) -/

/-- `tapatite(SiO2, P2O5)`, Harrison and Watson 1984: the value is computed
first and replaced by NaN when `P2O5 <= 0`. -/
noncomputable def tapatite (SiO2 P2O5 : ℝ) : Dbl :=
  let Tsat : Dbl := Dbl.num ((8400 + (SiO2 / 100 - 0.5) * 2.65e4)
    / (Real.log (41.82 / P2O5) + 3.1 + 12.4 * (SiO2 / 100 - 0.5)) - 273.15)
  if P2O5 ≤ 0 then Dbl.nan else Tsat

/-- `tapatiteP2O5(SiO2, T)`, the P2O5 content at saturation for temperature `T`. -/
noncomputable def tapatiteP2O5 (SiO2 T : ℝ) : ℝ :=
  41.82 / Real.exp ((8400 + (SiO2 / 100 - 0.5) * 2.64e4) / (T + 273.15)
    - (3.1 + 12.4 * (SiO2 / 100 - 0.5)))

/-! ## The imported liquid table and the saturation scan (source lines 305-354) -/

/-- One row of the liquid table `melts[0]`: the columns the analysis reads
(`Temperature`, `mass`, `SiO2`, `P2O5`), already looked up by name. -/
structure Sample where
  T : ℝ
  mass : ℝ
  SiO2 : ℝ
  P2O5 : ℝ

/-- The buffer `melts[0]`, indexed by the C `int` row.  The number of valid
rows `meltsrows[0]` is passed separately, as in the source; a read at an index
outside `0 .. meltsrows[0]-1` returns whatever the buffer holds there. -/
abbrev Melts := Int → Sample

/-- The task record `ic[18]` / one row of the input batch `data[i]`. -/
abbrev Composition := Fin 18 → ℝ

/-- `minPercentMelt`, source line 170. -/
def minPercentMelt : ℝ := 10

/-- The variables of the scan loop, with a flag that is cleared when the
`for` statement has been left (by `break` or by its condition). -/
structure ScanState where
  row : Int
  Tsmax : Dbl
  Tsat : Dbl
  running : Bool

/-- The state on entry to the loop: `Tsat=0; Tsmax=Tsatbulk; row=1`. -/
noncomputable def scanInit (melts : Melts) : ScanState :=
  { row := 1
    Tsmax := tapatite (melts 0).SiO2 (melts 0).P2O5
    Tsat := Dbl.num 0
    running := true }

open Classical in
/-- One pass through the `for` statement of lines 309-333: the loop test, the
body and the increment, or the exit. -/
noncomputable def scanStep (melts : Melts) (meltsrows : Int) (s : ScanState) : ScanState :=
  if s.running = false then s
  else if s.row < meltsrows - 1 then
    let Ts := tapatite (melts s.row).SiO2 (melts s.row).P2O5
    let Tsmax := if Dbl.gt Ts s.Tsmax then Ts else s.Tsmax
    let Tsat := if Dbl.eqZero s.Tsat ∧ Dbl.gt Ts (Dbl.num (melts s.row).T) then Ts else s.Tsat
    if (melts (s.row - 1)).SiO2 > (melts s.row).SiO2 + 0.01 then
      { row := s.row - 1, Tsmax := Tsmax, Tsat := Tsat, running := false }
    else if (melts s.row).mass < minPercentMelt then
      { row := s.row - 1, Tsmax := Tsmax, Tsat := Tsat, running := false }
    else
      { row := s.row + 1, Tsmax := Tsmax, Tsat := Tsat, running := true }
  else
    { row := s.row, Tsmax := s.Tsmax, Tsat := s.Tsat, running := false }

/-- The loop state after `k` passes. -/
noncomputable def scanRun (melts : Melts) (meltsrows : Int) (k : Nat) : ScanState :=
  (scanStep melts meltsrows)^[k] (scanInit melts)

/-- The state when the loop has been left: `meltsrows.toNat + 1` passes always
suffice (`scan_finished`). -/
noncomputable def scan (melts : Melts) (meltsrows : Int) : ScanState :=
  scanRun melts meltsrows (meltsrows.toNat + 1)

/-- The values printed for one composition (line 354), `M` left out. -/
structure Result where
  Kv : ℝ
  Tliq : ℝ
  Tsatbulk : Dbl
  Tf : ℝ
  Tsat : Dbl
  P2O5sat : ℝ
  P2O5f : ℝ
  Ff : ℝ
  SiO2 : ℝ
  P2O5bulk : ℝ
  MAp : ℝ

open Classical in
/-- Lines 305-354: the saturation analysis of one imported liquid table. -/
noncomputable def analyze (ic : Composition) (melts : Melts) (meltsrows : Int) : Result :=
  let Tsatbulk := tapatite (melts 0).SiO2 (melts 0).P2O5
  let s := scan melts meltsrows
  let Tsat := if Dbl.eqZero s.Tsat then s.Tsmax else s.Tsat
  let P2O5f := (melts s.row).P2O5
  let Tf := (melts s.row).T
  let P2O5sat := tapatiteP2O5 (melts s.row).SiO2 Tf
  let MAp := if P2O5f > P2O5sat then (melts s.row).mass / 100 * (P2O5f - P2O5sat) else 0
  { Kv := ic 17
    Tliq := (melts 0).T
    Tsatbulk := Tsatbulk
    Tf := Tf
    Tsat := Tsat
    P2O5sat := P2O5sat
    P2O5f := P2O5f
    Ff := (melts s.row).mass
    SiO2 := (melts 0).SiO2
    P2O5bulk := (melts 0).P2O5
    MAp := MAp }

/-! ## One task of a worker (source lines 216-257) -/

/-- What a worker does with one received task. -/
inductive WorkerOutcome where
  | stop : WorkerOutcome
  | failed : WorkerOutcome
  | emitted : Result → WorkerOutcome

/-- The test of line 224, `ic[0]<0`. -/
def isStop (ic : Composition) : Prop := ic 0 < 0

open Classical in
/-- One pass of the worker loop after `MPI_Recv`.  Running the simulator and
reading its tables back are a parameter: `none` when no usable liquid table
was produced, otherwise the table `melts[0]` and `meltsrows[0]`. -/
noncomputable def workerTask (runmelts : Composition → Option (Melts × Int))
    (ic : Composition) : WorkerOutcome :=
  if isStop ic then WorkerOutcome.stop
  else
    match runmelts ic with
    | none => WorkerOutcome.failed
    | some (melts, meltsrows) => WorkerOutcome.emitted (analyze ic melts meltsrows)

/-- The array `double stop[18] = {-1}`. -/
def stop : Composition := fun i => if i = 0 then -1 else 0

/-! ## The root rank and the workers as one system (lines 99-136, 216-355)

The ranks run concurrently and exchange messages; the system is a state and
a step relation, one step being one move of one rank.  A worker's readiness
message (`MPI_Isend`, tag 0) is counted in `pending` until a receive of the
root completes on it; a task sent by the root (`MPI_Send`, tag 1) waits in the
worker's `inbox` until the worker's `MPI_Recv` takes it.  At every send of the
root the destination is already blocked in `MPI_Recv` with an empty inbox
(`DispatchInv`, `StopInv`), so a send that completes at once and a send that
waits for its receive give the same steps. -/

/-- Where a worker stands in its loop: before `MPI_Isend` (line 219), blocked
in `MPI_Recv` (line 221), in the body with the record it received (lines
226-354), or past the `break` of line 224. -/
inductive WorkerPc where
  | idle : WorkerPc
  | awaiting : WorkerPc
  | running : Composition → WorkerPc
  | terminated : WorkerPc

/-- Where the root stands: `dispatch i` is the loop of lines 119-125 at loop
variable `i`, and for `i = datarows` the call of `MPI_Waitall` (line 131);
`stopping i` is the loop of lines 133-135 at loop variable `i`, and for
`i = world_size` the end of the root's work. -/
inductive RootPc where
  | dispatch : Nat → RootPc
  | stopping : Nat → RootPc

/-- The state of the system.  Workers are named by their rank `w`, which owns
the request slot `reqs[w-1]`; `armed w` says that a receive is posted on that
slot.  `sent` records the `MPI_Send` calls of the root, payload and
destination, in order. -/
structure Sys where
  root : RootPc
  armed : Nat → Bool
  pending : Nat → Nat
  inbox : Nat → List Composition
  worker : Nat → WorkerPc
  sent : List (Composition × Nat)

/-- The state once the root has posted one receive per worker (lines 113-116)
and before any worker has moved.  A worker that announces itself earlier only
raises its `pending` count, which does not depend on the posted receives, so
starting here loses no run.  The `printf` calls of the root are left out. -/
def sysInit (world_size : Nat) : Sys :=
  { root := RootPc.dispatch 0
    armed := fun w => decide (1 ≤ w ∧ w < world_size)
    pending := fun _ => 0
    inbox := fun _ => []
    worker := fun _ => WorkerPc.idle
    sent := [] }

/-- One move of one rank.
* `announce`: a worker sends its readiness message and enters `MPI_Recv`.
* `receive_stop`, `receive_task`: `MPI_Recv` returns the oldest record sent to
  the worker; the test of line 224 decides between `break` and the body.
* `finish`: the body ends (result printed or failure reported) and the worker
  is back at the top of its loop.
* `dispatch`: one pass of lines 119-125.  `MPI_Waitany` returns an armed slot
  whose readiness message has arrived, which completes that receive; row `i`
  is sent to that worker; a new receive is posted on the slot.
* `waitall`: `MPI_Waitall` returns when every armed slot has its readiness
  message; this completes all these receives.
* `stop_send`: one pass of lines 133-135. -/
inductive Step (world_size : Nat) (data : List Composition) : Sys → Sys → Prop
  | announce (s : Sys) (w : Nat) (hw : 1 ≤ w ∧ w < world_size)
      (h : s.worker w = WorkerPc.idle) :
      Step world_size data s
        { s with
          pending := Function.update s.pending w (s.pending w + 1)
          worker := Function.update s.worker w WorkerPc.awaiting }
  | receive_stop (s : Sys) (w : Nat) (hw : 1 ≤ w ∧ w < world_size)
      (ic : Composition) (rest : List Composition)
      (h : s.worker w = WorkerPc.awaiting) (hin : s.inbox w = ic :: rest)
      (hstop : isStop ic) :
      Step world_size data s
        { s with
          inbox := Function.update s.inbox w rest
          worker := Function.update s.worker w WorkerPc.terminated }
  | receive_task (s : Sys) (w : Nat) (hw : 1 ≤ w ∧ w < world_size)
      (ic : Composition) (rest : List Composition)
      (h : s.worker w = WorkerPc.awaiting) (hin : s.inbox w = ic :: rest)
      (hstop : ¬ isStop ic) :
      Step world_size data s
        { s with
          inbox := Function.update s.inbox w rest
          worker := Function.update s.worker w (WorkerPc.running ic) }
  | finish (s : Sys) (w : Nat) (hw : 1 ≤ w ∧ w < world_size) (ic : Composition)
      (h : s.worker w = WorkerPc.running ic) :
      Step world_size data s
        { s with worker := Function.update s.worker w WorkerPc.idle }
  | dispatch (s : Sys) (w : Nat) (hw : 1 ≤ w ∧ w < world_size) (i : Nat) (d : Composition)
      (hr : s.root = RootPc.dispatch i) (hd : data.get? i = some d)
      (ha : s.armed w = true) (hp : 0 < s.pending w) :
      Step world_size data s
        { root := RootPc.dispatch (i + 1)
          armed := Function.update (Function.update s.armed w false) w true
          pending := Function.update s.pending w (s.pending w - 1)
          inbox := Function.update s.inbox w (s.inbox w ++ [d])
          worker := s.worker
          sent := s.sent ++ [(d, w)] }
  | waitall (s : Sys) (hr : s.root = RootPc.dispatch data.length)
      (hall : ∀ w : Nat, 1 ≤ w → w < world_size → s.armed w = true → 0 < s.pending w) :
      Step world_size data s
        { s with
          root := RootPc.stopping 1
          armed := fun w => if 1 ≤ w ∧ w < world_size then false else s.armed w
          pending := fun w =>
            if 1 ≤ w ∧ w < world_size ∧ s.armed w = true then s.pending w - 1 else s.pending w }
  | stop_send (s : Sys) (j : Nat) (hr : s.root = RootPc.stopping j) (hj : j < world_size) :
      Step world_size data s
        { s with
          root := RootPc.stopping (j + 1)
          inbox := Function.update s.inbox j (s.inbox j ++ [stop])
          sent := s.sent ++ [(stop, j)] }

/-- The states the system can be in: those reached from `sysInit` by steps,
in whatever order the ranks move. -/
def Reach (world_size : Nat) (data : List Composition) (s : Sys) : Prop :=
  Relation.ReflTransGen (Step world_size data) (sysInit world_size) s

/-- The end of the run: the root is past its last loop and every worker has
left its loop. -/
def Final (world_size : Nat) (s : Sys) : Prop :=
  s.root = RootPc.stopping world_size
    ∧ ∀ w : Nat, 1 ≤ w → w < world_size → s.worker w = WorkerPc.terminated ∧ s.inbox w = []

/-- The moves a worker still has to make from where it stands, not counting
the records in its inbox. -/
def pcWeight : WorkerPc → Nat
  | WorkerPc.idle => 1
  | WorkerPc.awaiting => 0
  | WorkerPc.running _ => 2
  | WorkerPc.terminated => 0

/-- The moves the root still has to make, each send counted with the moves it
causes at the receiving worker. -/
def rootWeight (world_size : Nat) (data : List Composition) : RootPc → Nat
  | RootPc.dispatch i => 4 * (data.length - i) + 4 * world_size + 1
  | RootPc.stopping j => 4 * (world_size - j)

/-- A bound on the number of steps left. -/
def stepsLeft (world_size : Nat) (data : List Composition) (s : Sys) : Nat :=
  rootWeight world_size data s.root
    + (Finset.Ico 1 world_size).sum fun w => pcWeight (s.worker w) + 3 * (s.inbox w).length

/-- A worker during the dispatch loop: its slot is armed, and it is at the
top of its loop, or has announced itself, or has a task waiting, or is
working on one. -/
def WorkerOK (s : Sys) (w : Nat) : Prop :=
  s.armed w = true
    ∧ ((s.worker w = WorkerPc.idle ∧ s.pending w = 0 ∧ s.inbox w = [])
      ∨ (s.worker w = WorkerPc.awaiting ∧ s.pending w = 1 ∧ s.inbox w = [])
      ∨ (s.worker w = WorkerPc.awaiting ∧ s.pending w = 0
          ∧ ∃ d : Composition, s.inbox w = [d] ∧ ¬ isStop d)
      ∨ ((∃ ic : Composition, s.worker w = WorkerPc.running ic) ∧ s.pending w = 0
          ∧ s.inbox w = []))

/-- What holds while the root is at `dispatch i`. -/
def DispatchInv (world_size : Nat) (data : List Composition) (s : Sys) (i : Nat) : Prop :=
  i ≤ data.length
    ∧ s.sent.map Prod.fst = data.take i
    ∧ (∀ p ∈ s.sent, 1 ≤ p.2 ∧ p.2 < world_size)
    ∧ ∀ w : Nat, 1 ≤ w → w < world_size → WorkerOK s w

/-- What holds while the root is at `stopping j`: all rows were sent, then the
stop record to the ranks below `j`; the ranks from `j` on are blocked in
`MPI_Recv` with nothing sent to them that they have not dealt with. -/
def StopInv (world_size : Nat) (data : List Composition) (s : Sys) (j : Nat) : Prop :=
  1 ≤ j ∧ j ≤ world_size
    ∧ (∃ pre : List (Composition × Nat),
        s.sent = pre ++ (List.range' 1 (j - 1)).map (fun w => (stop, w))
          ∧ pre.map Prod.fst = data ∧ ∀ p ∈ pre, 1 ≤ p.2 ∧ p.2 < world_size)
    ∧ ∀ w : Nat, 1 ≤ w → w < world_size →
        s.armed w = false ∧ s.pending w = 0
          ∧ (j ≤ w → s.worker w = WorkerPc.awaiting ∧ s.inbox w = [])
          ∧ (w < j → (s.worker w = WorkerPc.awaiting ∧ s.inbox w = [stop])
              ∨ (s.worker w = WorkerPc.terminated ∧ s.inbox w = []))

/-- The invariant of the system for a batch without a negative field 0. -/
def Inv (world_size : Nat) (data : List Composition) (s : Sys) : Prop :=
  (∀ i : Nat, s.root = RootPc.dispatch i → DispatchInv world_size data s i)
    ∧ ∀ j : Nat, s.root = RootPc.stopping j → StopInv world_size data s j

/-- A task record with a negative field 0 that is not the stop record. -/
def icNeg : Composition := fun i => if i = 0 then -1 else if i = 17 then 8 else 0

/-! ## Vocabulary for the statements about the scan -/

/-- The instantaneous saturation temperature of row `i` (the value the loop
body stores in `Ts`). -/
noncomputable def Ts (melts : Melts) (i : Int) : Dbl :=
  tapatite (melts i).SiO2 (melts i).P2O5

/-- Row `i` meets one of the two `break` conditions of the loop body. -/
def stopAt (melts : Melts) (i : Int) : Prop :=
  (melts (i - 1)).SiO2 > (melts i).SiO2 + 0.01 ∨ (melts i).mass < minPercentMelt

/-- Row `i` is a crossing sample: its instantaneous saturation temperature
exceeds its own temperature. -/
def crossAt (melts : Melts) (i : Int) : Prop :=
  Dbl.gt (Ts melts i) (Dbl.num (melts i).T)

/-- The rows on which the loop body runs: from row 1 on, below
`meltsrows - 1`, with no `break` at an earlier row. -/
def visited (melts : Melts) (meltsrows : Int) (i : Int) : Prop :=
  1 ≤ i ∧ i < meltsrows - 1 ∧ ∀ j : Int, 1 ≤ j → j < i → ¬ stopAt melts j

/-! ## Concrete liquid tables used as test inputs -/

/-- The table holding the given rows from index 0 on (zeros elsewhere). -/
def tableOf (rows : List Sample) : Melts :=
  fun i => rows.getD i.toNat { T := 0, mass := 0, SiO2 := 0, P2O5 := 0 }

/-- A task record with SiO2 = 50, P2O5 = 0.3 and identifier 7. -/
def icA : Composition := fun i => if i = 0 then 50 else if i = 13 then 0.3 else if i = 17 then 7 else 0

/-- Six rows: SiO2 rises from row 0 to row 4 and drops by 0.02 at row 5,
the last row. -/
def rowsB6 : List Sample :=
  [ { T := 1700, mass := 100, SiO2 := 50, P2O5 := 0.3 },
    { T := 1690, mass := 90, SiO2 := 51, P2O5 := 0.3 },
    { T := 1680, mass := 80, SiO2 := 52, P2O5 := 0.3 },
    { T := 1670, mass := 70, SiO2 := 53, P2O5 := 0.3 },
    { T := 1660, mass := 60, SiO2 := 54, P2O5 := 0.3 },
    { T := 1650, mass := 50, SiO2 := 53.98, P2O5 := 0.3 } ]

/-- The same six rows followed by a seventh. -/
def rowsB7 : List Sample :=
  rowsB6 ++ [ { T := 1640, mass := 40, SiO2 := 53.9, P2O5 := 0.3 } ]

/-- Three rows whose first row already lies below its saturation curve. -/
def rowsX : List Sample :=
  [ { T := 700, mass := 100, SiO2 := 50, P2O5 := 0.3 },
    { T := 690, mass := 90, SiO2 := 70, P2O5 := 0.3 },
    { T := 680, mass := 80, SiO2 := 71, P2O5 := 0.3 } ]

/-- Four rows: row 1 is above its saturation curve, row 2 is the first one
below it, with a slightly lower saturation temperature than row 1. -/
def rowsM : List Sample :=
  [ { T := 1040, mass := 100, SiO2 := 69.9, P2O5 := 0.3 },
    { T := 1030, mass := 95, SiO2 := 70, P2O5 := 0.3 },
    { T := 1020, mass := 90, SiO2 := 69.995, P2O5 := 0.3 },
    { T := 1010, mass := 85, SiO2 := 70.1, P2O5 := 0.3 } ]

/-! ## Helper facts on logarithms -/

theorem log_139_4_lower : (4.9338 : ℝ) < Real.log (41.82 / 0.3) := by
  have h2 := Real.log_two_gt_d9
  have hpos : (0 : ℝ) < 41.82 / 0.3 / 128 := by norm_num
  have h1 := Real.one_sub_inv_le_log_of_pos hpos
  have hsplit : Real.log (41.82 / 0.3) = Real.log (41.82 / 0.3 / 128) + 7 * Real.log 2 := by
    have h128 : (128 : ℝ) = 2 ^ 7 := by norm_num
    have e : (41.82 / 0.3 : ℝ) = (41.82 / 0.3 / 128) * 2 ^ 7 := by norm_num
    conv_lhs => rw [e]
    rw [Real.log_mul (by norm_num) (by norm_num), Real.log_pow]
    norm_num
  rw [hsplit]
  norm_num at h1 ⊢
  linarith

theorem log_139_4_upper : Real.log (41.82 / 0.3) < (4.9412 : ℝ) := by
  have h2 := Real.log_two_lt_d9
  have hpos : (0 : ℝ) < 41.82 / 0.3 / 128 := by norm_num
  have h1 := Real.log_le_sub_one_of_pos hpos
  have hsplit : Real.log (41.82 / 0.3) = Real.log (41.82 / 0.3 / 128) + 7 * Real.log 2 := by
    have e : (41.82 / 0.3 : ℝ) = (41.82 / 0.3 / 128) * 2 ^ 7 := by norm_num
    conv_lhs => rw [e]
    rw [Real.log_mul (by norm_num) (by norm_num), Real.log_pow]
    norm_num
  rw [hsplit]
  norm_num at h1 ⊢
  linarith

theorem log_4182_lower : (8.3177 : ℝ) < Real.log (41.82 / 0.01) := by
  have h2 := Real.log_two_gt_d9
  have hle : Real.log ((2 : ℝ) ^ 12) ≤ Real.log (41.82 / 0.01) :=
    Real.log_le_log (by norm_num) (by norm_num)
  rw [Real.log_pow] at hle
  norm_num at hle
  linarith

/-! ## The closed-form functions -/

theorem roundtrip_exponent (s L c N : ℝ) (hN : N ≠ 0) :
    (N - s * 100) / (N / (L + c) - 273.15 + 273.15) - c = L - s * 100 / N * (L + c) := by
  have h : N / (L + c) - 273.15 + 273.15 = N / (L + c) := by ring
  rw [h]
  field_simp
  ring

/-- Composing the two closed forms: the inverse applied to the forward value
returns `P2O5` multiplied by the exponential of a term that vanishes only
when the constants `2.65e4` and `2.64e4` agree or `SiO2 = 50`. -/
theorem roundtrip_value (S P : ℝ) (hP : 0 < P)
    (hN : 8400 + (S / 100 - 0.5) * 2.65e4 ≠ 0) :
    tapatiteP2O5 S ((8400 + (S / 100 - 0.5) * 2.65e4)
        / (Real.log (41.82 / P) + 3.1 + 12.4 * (S / 100 - 0.5)) - 273.15)
      = P * Real.exp ((S / 100 - 0.5) * 100 / (8400 + (S / 100 - 0.5) * 2.65e4)
          * (Real.log (41.82 / P) + (3.1 + 12.4 * (S / 100 - 0.5)))) := by
  unfold tapatiteP2O5
  have h1 : (8400 + (S / 100 - 0.5) * 2.64e4 : ℝ)
      = (8400 + (S / 100 - 0.5) * 2.65e4) - (S / 100 - 0.5) * 100 := by
    norm_num
    ring
  have h2 : Real.log (41.82 / P) + 3.1 + 12.4 * (S / 100 - 0.5)
      = Real.log (41.82 / P) + (3.1 + 12.4 * (S / 100 - 0.5)) := by ring
  rw [h1, h2, roundtrip_exponent _ _ _ _ hN, Real.exp_sub, Real.exp_log (by positivity)]
  have hx := Real.exp_pos ((S / 100 - 0.5) * 100 / (8400 + (S / 100 - 0.5) * 2.65e4)
          * (Real.log (41.82 / P) + (3.1 + 12.4 * (S / 100 - 0.5))))
  field_simp

/-- For `P2O5 > 0` the NaN branch is not taken. -/
theorem tapatite_of_pos (SiO2 P2O5 : ℝ) (h : 0 < P2O5) :
    tapatite SiO2 P2O5
      = Dbl.num ((8400 + (SiO2 / 100 - 0.5) * 26500)
          / (Real.log (41.82 / P2O5) + 3.1 + 12.4 * (SiO2 / 100 - 0.5)) - 273.15) := by
  unfold tapatite
  rw [if_neg (not_le.mpr h)]
  norm_num

/-- C3: for `P2O5 > 0` the function returns the Harrison-Watson closed form
with the constant 26500, and for `P2O5 <= 0` it returns NaN, which is no
number. -/
theorem tapatite_closed_form (SiO2 P2O5 : ℝ) :
    (0 < P2O5 → tapatite SiO2 P2O5
      = Dbl.num ((8400 + (SiO2 / 100 - 0.5) * 26500)
          / (Real.log (41.82 / P2O5) + 3.1 + 12.4 * (SiO2 / 100 - 0.5)) - 273.15))
    ∧ (P2O5 ≤ 0 → tapatite SiO2 P2O5 = Dbl.nan ∧ ∀ x : ℝ, tapatite SiO2 P2O5 ≠ Dbl.num x) := by
  constructor
  · exact tapatite_of_pos SiO2 P2O5
  · intro h
    unfold tapatite
    rw [if_pos h]
    exact ⟨rfl, fun x hx => Dbl.noConfusion hx⟩

theorem tapatite_closed_form_witness :
    tapatite 60 0.3 = Dbl.num ((8400 + ((60 : ℝ) / 100 - 0.5) * 26500)
          / (Real.log (41.82 / 0.3) + 3.1 + 12.4 * ((60 : ℝ) / 100 - 0.5)) - 273.15)
    ∧ tapatite 60 0 = Dbl.nan :=
  ⟨(tapatite_closed_form 60 0.3).1 (by norm_num),
   ((tapatite_closed_form 60 0).2 (le_refl 0)).1⟩

/-- C8, as stated, fails: the bulk saturation temperature of the composition
with SiO2 = 60 and P2O5 = 0.3 is a number below 940 degrees Celsius, outside
the range 940 to 960. -/
theorem tapatite_60_03_below_940 : ∃ t : ℝ, tapatite 60 0.3 = Dbl.num t ∧ t < 940 := by
  refine ⟨_, tapatite_of_pos 60 0.3 (by norm_num), ?_⟩
  have hL := log_139_4_lower
  rw [sub_lt_iff_lt_add, div_lt_iff₀ (by linarith)]
  norm_num
  linarith

/-- C8, amended: for SiO2 = 60 and P2O5 = 0.3 the function returns the closed
form, and that value lies between 917 and 919 degrees Celsius. -/
theorem tapatite_60_03_value :
    tapatite 60 0.3 = Dbl.num ((8400 + ((60 : ℝ) / 100 - 0.5) * 26500)
          / (Real.log (41.82 / 0.3) + 3.1 + 12.4 * ((60 : ℝ) / 100 - 0.5)) - 273.15)
    ∧ 917 < (8400 + ((60 : ℝ) / 100 - 0.5) * 26500)
          / (Real.log (41.82 / 0.3) + 3.1 + 12.4 * ((60 : ℝ) / 100 - 0.5)) - 273.15
    ∧ (8400 + ((60 : ℝ) / 100 - 0.5) * 26500)
          / (Real.log (41.82 / 0.3) + 3.1 + 12.4 * ((60 : ℝ) / 100 - 0.5)) - 273.15 < 919 := by
  have hL := log_139_4_lower
  have hU := log_139_4_upper
  refine ⟨tapatite_of_pos 60 0.3 (by norm_num), ?_, ?_⟩
  · rw [lt_sub_iff_add_lt, lt_div_iff₀ (by linarith)]
    norm_num
    linarith
  · rw [sub_lt_iff_lt_add, div_lt_iff₀ (by linarith)]
    norm_num
    linarith

/-- C4: the round trip is off by more than 2.5 percent at SiO2 = 80,
P2O5 = 0.01 and by more than 0.8 percent at SiO2 = 60, P2O5 = 0.3. -/
theorem roundtrip_off :
    (∃ t : ℝ, tapatite 80 0.01 = Dbl.num t ∧ tapatiteP2O5 80 t > 0.01025)
    ∧ (∃ t : ℝ, tapatite 60 0.3 = Dbl.num t ∧ tapatiteP2O5 60 t > 0.3025) := by
  constructor
  · have hL := log_4182_lower
    refine ⟨_, by unfold tapatite; rw [if_neg (by norm_num)], ?_⟩
    rw [roundtrip_value 80 0.01 (by norm_num) (by norm_num)]
    have hx := Real.add_one_le_exp (((80 : ℝ) / 100 - 0.5) * 100
      / (8400 + ((80 : ℝ) / 100 - 0.5) * 2.65e4)
      * (Real.log (41.82 / 0.01) + (3.1 + 12.4 * ((80 : ℝ) / 100 - 0.5))))
    norm_num at hL hx ⊢
    linarith
  · have hL := log_139_4_lower
    refine ⟨_, by unfold tapatite; rw [if_neg (by norm_num)], ?_⟩
    rw [roundtrip_value 60 0.3 (by norm_num) (by norm_num)]
    have hx := Real.add_one_le_exp (((60 : ℝ) / 100 - 0.5) * 100
      / (8400 + ((60 : ℝ) / 100 - 0.5) * 2.65e4)
      * (Real.log (41.82 / 0.3) + (3.1 + 12.4 * ((60 : ℝ) / 100 - 0.5))))
    norm_num at hL hx ⊢
    linarith

/-! ## The scan loop, pass by pass -/

theorem scanRun_zero (melts : Melts) (n : Int) : scanRun melts n 0 = scanInit melts := rfl

theorem scanRun_succ (melts : Melts) (n : Int) (k : Nat) :
    scanRun melts n (k + 1) = scanStep melts n (scanRun melts n k) := by
  unfold scanRun
  rw [Function.iterate_succ_apply']

theorem scanStep_stopped (melts : Melts) (n : Int) (s : ScanState)
    (h : s.running = false) : scanStep melts n s = s := by
  unfold scanStep
  rw [if_pos h]

theorem scanStep_exit (melts : Melts) (n : Int) (s : ScanState)
    (h : s.running = true) (hr : ¬ s.row < n - 1) :
    scanStep melts n s
      = { row := s.row, Tsmax := s.Tsmax, Tsat := s.Tsat, running := false } := by
  unfold scanStep
  rw [if_neg (by simp [h]), if_neg hr]

open Classical in
theorem scanStep_break (melts : Melts) (n : Int) (s : ScanState)
    (h : s.running = true) (hr : s.row < n - 1) (hs : stopAt melts s.row) :
    scanStep melts n s
      = { row := s.row - 1
          Tsmax := if Dbl.gt (Ts melts s.row) s.Tsmax then Ts melts s.row else s.Tsmax
          Tsat := if Dbl.eqZero s.Tsat ∧ crossAt melts s.row then Ts melts s.row else s.Tsat
          running := false } := by
  unfold scanStep
  rw [if_neg (by simp [h]), if_pos hr]
  unfold stopAt at hs
  by_cases h1 : (melts (s.row - 1)).SiO2 > (melts s.row).SiO2 + 0.01
  · simp only [h1, if_true]
    rfl
  · have h2 : (melts s.row).mass < minPercentMelt := hs.resolve_left h1
    simp only [h1, h2, if_true, if_false]
    rfl

open Classical in
theorem scanStep_continue (melts : Melts) (n : Int) (s : ScanState)
    (h : s.running = true) (hr : s.row < n - 1) (hs : ¬ stopAt melts s.row) :
    scanStep melts n s
      = { row := s.row + 1
          Tsmax := if Dbl.gt (Ts melts s.row) s.Tsmax then Ts melts s.row else s.Tsmax
          Tsat := if Dbl.eqZero s.Tsat ∧ crossAt melts s.row then Ts melts s.row else s.Tsat
          running := true } := by
  unfold scanStep
  rw [if_neg (by simp [h]), if_pos hr]
  unfold stopAt at hs
  push_neg at hs
  have h1 : ¬ (melts (s.row - 1)).SiO2 > (melts s.row).SiO2 + 0.01 := not_lt.mpr hs.1
  have h2 : ¬ (melts s.row).mass < minPercentMelt := not_lt.mpr hs.2
  simp only [h1, h2, if_false]
  rfl

/-- While the loop is running after `k` passes, it stands at row `k + 1`, and
rows `1 .. k` were below the loop bound and met no `break` condition. -/
theorem scanRun_running (melts : Melts) (n : Int) (k : Nat)
    (h : (scanRun melts n k).running = true) :
    (scanRun melts n k).row = (k : Int) + 1
      ∧ ∀ i : Int, 1 ≤ i → i ≤ k → i < n - 1 ∧ ¬ stopAt melts i := by
  induction k with
  | zero =>
    refine ⟨by simp [scanRun_zero, scanInit], ?_⟩
    intro i h1 h2
    simp at h2
    omega
  | succ k ih =>
    rw [scanRun_succ] at h ⊢
    by_cases hrun : (scanRun melts n k).running = true
    · obtain ⟨hrow, hpre⟩ := ih hrun
      by_cases hr : (scanRun melts n k).row < n - 1
      · by_cases hs : stopAt melts (scanRun melts n k).row
        · rw [scanStep_break melts n _ hrun hr hs] at h
          simp at h
        · rw [scanStep_continue melts n _ hrun hr hs]
          refine ⟨by simp [hrow], ?_⟩
          intro i h1 h2
          by_cases hik : i ≤ k
          · exact hpre i h1 hik
          · have hi : i = (scanRun melts n k).row := by
              rw [hrow]
              push_cast at h2
              omega
            rw [hi]
            exact ⟨hr, hs⟩
      · rw [scanStep_exit melts n _ hrun hr] at h
        simp at h
    · have hf : (scanRun melts n k).running = false := by simpa using hrun
      rw [scanStep_stopped melts n _ hf] at h
      exact absurd h hrun

/-- Once the loop has been left the state no longer changes. -/
theorem scanRun_stable (melts : Melts) (n : Int) (k m : Nat)
    (h : (scanRun melts n k).running = false) :
    scanRun melts n (k + m) = scanRun melts n k := by
  induction m with
  | zero => rfl
  | succ m ih =>
    rw [← Nat.add_assoc, scanRun_succ, ih, scanStep_stopped melts n _ h]

/-- The passes granted by `scan` are enough: the loop has been left. -/
theorem scan_finished (melts : Melts) (n : Int) : (scan melts n).running = false := by
  unfold scan
  by_contra h
  have hrun : (scanRun melts n (n.toNat + 1)).running = true := by simpa using h
  have h1 := (scanRun_running melts n (n.toNat + 1) hrun).2 ((n.toNat : Int) + 1)
    (by omega) (by push_cast; omega)
  omega

/-- A state reached after `k` passes with the loop left is the final state,
provided `k` is within the passes granted. -/
theorem scan_eq_of_stopped (melts : Melts) (n : Int) (k : Nat)
    (hk : k ≤ n.toNat + 1) (h : (scanRun melts n k).running = false) :
    scan melts n = scanRun melts n k := by
  unfold scan
  obtain ⟨m, hm⟩ := Nat.exists_eq_add_of_le hk
  rw [hm]
  exact scanRun_stable melts n k m h

/-- The loop reaches every visited row: after `i - 1` passes it stands at
row `i` and is running. -/
theorem scanRun_at_visited (melts : Melts) (n : Int) (k : Nat)
    (hv : ∀ i : Int, 1 ≤ i → i ≤ k → i < n - 1 ∧ ¬ stopAt melts i) :
    (scanRun melts n k).running = true ∧ (scanRun melts n k).row = (k : Int) + 1 := by
  induction k with
  | zero => simp [scanRun_zero, scanInit]
  | succ k ih =>
    have hpre : ∀ i : Int, 1 ≤ i → i ≤ k → i < n - 1 ∧ ¬ stopAt melts i := by
      intro i h1 h2
      exact hv i h1 (by push_cast; omega)
    obtain ⟨hrun, hrow⟩ := ih hpre
    have hk := hv ((k : Int) + 1) (by omega) (by push_cast; omega)
    rw [← hrow] at hk
    rw [scanRun_succ, scanStep_continue melts n _ hrun hk.1 hk.2]
    simp [hrow]

/-! ## The stopping row -/

/-- A `break` at a visited row `k` leaves the loop with `row = k - 1`. -/
theorem scan_row_of_stop (melts : Melts) (n k : Int)
    (hv : visited melts n k) (hs : stopAt melts k) : (scan melts n).row = k - 1 := by
  obtain ⟨h1, h2, h3⟩ := hv
  obtain ⟨K, hK⟩ : ∃ K : Nat, (K : Int) = k - 1 := ⟨(k - 1).toNat, by omega⟩
  have hpre : ∀ i : Int, 1 ≤ i → i ≤ (K : Nat) → i < n - 1 ∧ ¬ stopAt melts i := by
    intro i hi1 hi2
    have : i < k := by omega
    exact ⟨by omega, h3 i hi1 this⟩
  obtain ⟨hrun, hrow⟩ := scanRun_at_visited melts n K hpre
  have hrow' : (scanRun melts n K).row = k := by rw [hrow]; omega
  have hstep := scanStep_break melts n _ hrun (by rw [hrow']; exact h2) (by rw [hrow']; exact hs)
  have hfin : (scanRun melts n (K + 1)).running = false := by
    rw [scanRun_succ, hstep]
  rw [scan_eq_of_stopped melts n (K + 1) (by omega) hfin, scanRun_succ, hstep]
  simp only [hrow']

/-- Without a `break` the loop ends by its bound, with `row = meltsrows - 1`. -/
theorem scan_row_no_stop (melts : Melts) (n : Int) (hn : 2 ≤ n)
    (hs : ∀ i : Int, 1 ≤ i → i < n - 1 → ¬ stopAt melts i) : (scan melts n).row = n - 1 := by
  obtain ⟨K, hK⟩ : ∃ K : Nat, (K : Int) = n - 2 := ⟨(n - 2).toNat, by omega⟩
  have hpre : ∀ i : Int, 1 ≤ i → i ≤ (K : Nat) → i < n - 1 ∧ ¬ stopAt melts i := by
    intro i hi1 hi2
    have : i < n - 1 := by omega
    exact ⟨this, hs i hi1 this⟩
  obtain ⟨hrun, hrow⟩ := scanRun_at_visited melts n K hpre
  have hrow' : (scanRun melts n K).row = n - 1 := by rw [hrow]; omega
  have hstep := scanStep_exit melts n _ hrun (by rw [hrow']; omega)
  have hfin : (scanRun melts n (K + 1)).running = false := by
    rw [scanRun_succ, hstep]
  rw [scan_eq_of_stopped melts n (K + 1) (by omega) hfin, scanRun_succ, hstep]
  simp only [hrow']

/-- With at least two rows, `row` stays inside the table on every pass, and
is at least 1 while the loop is running. -/
theorem scanRun_row_bounds (melts : Melts) (n : Int) (hn : 2 ≤ n) (k : Nat) :
    0 ≤ (scanRun melts n k).row ∧ (scanRun melts n k).row ≤ n - 1
      ∧ ((scanRun melts n k).running = true → 1 ≤ (scanRun melts n k).row) := by
  induction k with
  | zero =>
    simp only [scanRun_zero, scanInit]
    omega
  | succ k ih =>
    obtain ⟨h0, h1, h2⟩ := ih
    rw [scanRun_succ]
    by_cases hrun : (scanRun melts n k).running = true
    · have h3 := h2 hrun
      by_cases hr : (scanRun melts n k).row < n - 1
      · by_cases hs : stopAt melts (scanRun melts n k).row
        · rw [scanStep_break melts n _ hrun hr hs]
          simp only
          refine ⟨by omega, by omega, by simp⟩
        · rw [scanStep_continue melts n _ hrun hr hs]
          simp only
          refine ⟨by omega, by omega, fun _ => by omega⟩
      · rw [scanStep_exit melts n _ hrun hr]
        simp only
        refine ⟨h0, h1, by simp⟩
    · have hf : (scanRun melts n k).running = false := by simpa using hrun
      rw [scanStep_stopped melts n _ hf]
      exact ⟨h0, h1, h2⟩

/-! ## The recorded saturation temperature `Tsat` -/

/-- While no visited row up to pass `K` is a crossing sample, `Tsat` keeps
its initial value 0. -/
theorem scanRun_Tsat_zero (melts : Melts) (n : Int) (K : Nat)
    (hc : ∀ i : Int, visited melts n i → i ≤ K → ¬ crossAt melts i) (k : Nat) (hk : k ≤ K) :
    (scanRun melts n k).Tsat = Dbl.num 0 := by
  induction k with
  | zero => simp [scanRun_zero, scanInit]
  | succ k ih =>
    have ih' := ih (by omega)
    rw [scanRun_succ]
    by_cases hrun : (scanRun melts n k).running = true
    · obtain ⟨hrow, hpre⟩ := scanRun_running melts n k hrun
      by_cases hr : (scanRun melts n k).row < n - 1
      · have hvis : visited melts n (scanRun melts n k).row := by
          refine ⟨by omega, hr, ?_⟩
          intro j hj1 hj2
          exact (hpre j hj1 (by omega)).2
        have hnc := hc _ hvis (by rw [hrow]; exact_mod_cast hk)
        by_cases hs : stopAt melts (scanRun melts n k).row
        · rw [scanStep_break melts n _ hrun hr hs]
          simp [hnc, ih']
        · rw [scanStep_continue melts n _ hrun hr hs]
          simp [hnc, ih']
      · rw [scanStep_exit melts n _ hrun hr]
        exact ih'
    · have hf : (scanRun melts n k).running = false := by simpa using hrun
      rw [scanStep_stopped melts n _ hf]
      exact ih'

/-- A recorded `Tsat` other than 0 is never overwritten. -/
theorem scanStep_Tsat_frozen (melts : Melts) (n : Int) (s : ScanState)
    (h : ¬ Dbl.eqZero s.Tsat) : (scanStep melts n s).Tsat = s.Tsat := by
  by_cases hrun : s.running = true
  · by_cases hr : s.row < n - 1
    · by_cases hs : stopAt melts s.row
      · rw [scanStep_break melts n _ hrun hr hs]
        simp [h]
      · rw [scanStep_continue melts n _ hrun hr hs]
        simp [h]
    · rw [scanStep_exit melts n _ hrun hr]
  · have hf : s.running = false := by simpa using hrun
    rw [scanStep_stopped melts n _ hf]

theorem scanRun_Tsat_frozen (melts : Melts) (n : Int) (k m : Nat)
    (h : ¬ Dbl.eqZero (scanRun melts n k).Tsat) :
    (scanRun melts n (k + m)).Tsat = (scanRun melts n k).Tsat := by
  induction m with
  | zero => rfl
  | succ m ih =>
    rw [← Nat.add_assoc, scanRun_succ, scanStep_Tsat_frozen melts n _ (by rw [ih]; exact h), ih]

/-- The loop records the saturation temperature of the first visited crossing
row, when that temperature is not exactly 0. -/
theorem scan_Tsat_first_cross (melts : Melts) (n j : Int)
    (hv : visited melts n j) (hx : crossAt melts j) (h0 : ¬ Dbl.eqZero (Ts melts j))
    (hfirst : ∀ i : Int, 1 ≤ i → i < j → ¬ crossAt melts i) :
    (scan melts n).Tsat = Ts melts j := by
  obtain ⟨h1, h2, h3⟩ := hv
  obtain ⟨K, hK⟩ : ∃ K : Nat, (K : Int) = j - 1 := ⟨(j - 1).toNat, by omega⟩
  have hpre : ∀ i : Int, 1 ≤ i → i ≤ (K : Nat) → i < n - 1 ∧ ¬ stopAt melts i := by
    intro i hi1 hi2
    have : i < j := by omega
    exact ⟨by omega, h3 i hi1 this⟩
  obtain ⟨hrun, hrow⟩ := scanRun_at_visited melts n K hpre
  have hrow' : (scanRun melts n K).row = j := by rw [hrow]; omega
  have hz : (scanRun melts n K).Tsat = Dbl.num 0 :=
    scanRun_Tsat_zero melts n K (fun i hi hik => hfirst i hi.1 (by omega)) K (le_refl _)
  have hez : Dbl.eqZero (scanRun melts n K).Tsat := by rw [hz]; rfl
  have hx' : crossAt melts (scanRun melts n K).row := by rw [hrow']; exact hx
  have hnext : (scanRun melts n (K + 1)).Tsat = Ts melts j := by
    rw [scanRun_succ]
    by_cases hs : stopAt melts (scanRun melts n K).row
    · rw [scanStep_break melts n _ hrun (by rw [hrow']; exact h2) hs]
      simp only
      rw [if_pos ⟨hez, hx'⟩, hrow']
    · rw [scanStep_continue melts n _ hrun (by rw [hrow']; exact h2) hs]
      simp only
      rw [if_pos ⟨hez, hx'⟩, hrow']
  unfold scan
  obtain ⟨m, hm⟩ := Nat.exists_eq_add_of_le (show K + 1 ≤ n.toNat + 1 by omega)
  rw [hm, scanRun_Tsat_frozen melts n _ m (by rw [hnext]; exact h0), hnext]

/-- Without a visited crossing row the loop leaves `Tsat` at 0. -/
theorem scan_Tsat_no_cross (melts : Melts) (n : Int)
    (hc : ∀ i : Int, visited melts n i → ¬ crossAt melts i) :
    (scan melts n).Tsat = Dbl.num 0 :=
  scanRun_Tsat_zero melts n (n.toNat + 1) (fun i hi _ => hc i hi) (n.toNat + 1) (le_refl _)

/-! ## The running maximum `Tsmax` -/

theorem Dbl.gt_irrefl (a : Dbl) : ¬ Dbl.gt a a := by
  cases a with
  | num x => exact lt_irrefl x
  | nan => exact id

theorem Dbl.gt_trans {a b c : Dbl} (h1 : Dbl.gt a b) (h2 : Dbl.gt b c) : Dbl.gt a c := by
  cases a with
  | nan => exact h1.elim
  | num x =>
    cases b with
    | nan => exact h1.elim
    | num y =>
      cases c with
      | nan => exact h2.elim
      | num z => exact lt_trans h2 h1

open Classical in
/-- The update `if (Ts > Tsmax) Tsmax = Ts;` returns the old value or a
greater one. -/
theorem updMax_ge (t m : Dbl) :
    (if Dbl.gt t m then t else m) = m ∨ Dbl.gt (if Dbl.gt t m then t else m) m := by
  by_cases h : Dbl.gt t m
  · right; rw [if_pos h]; exact h
  · left; rw [if_neg h]

open Classical in
theorem updMax_not_gt_self (t m : Dbl) : ¬ Dbl.gt t (if Dbl.gt t m then t else m) := by
  by_cases h : Dbl.gt t m
  · rw [if_pos h]; exact Dbl.gt_irrefl t
  · rw [if_neg h]; exact h

open Classical in
theorem updMax_not_gt (a t m : Dbl) (h : ¬ Dbl.gt a m) :
    ¬ Dbl.gt a (if Dbl.gt t m then t else m) := by
  by_cases ht : Dbl.gt t m
  · rw [if_pos ht]
    exact fun hat => h (Dbl.gt_trans hat ht)
  · rw [if_neg ht]; exact h

open Classical in
/-- On a pass that runs the body, `Tsmax` is updated with the row's `Ts`;
on every other pass it is unchanged. -/
theorem scanStep_Tsmax (melts : Melts) (n : Int) (s : ScanState) :
    (scanStep melts n s).Tsmax
      = if s.running = true ∧ s.row < n - 1 then
          (if Dbl.gt (Ts melts s.row) s.Tsmax then Ts melts s.row else s.Tsmax)
        else s.Tsmax := by
  by_cases hrun : s.running = true
  · by_cases hr : s.row < n - 1
    · rw [if_pos ⟨hrun, hr⟩]
      by_cases hs : stopAt melts s.row
      · rw [scanStep_break melts n _ hrun hr hs]
      · rw [scanStep_continue melts n _ hrun hr hs]
    · rw [if_neg (fun h => hr h.2), scanStep_exit melts n _ hrun hr]
  · have hf : s.running = false := by simpa using hrun
    rw [if_neg (fun h => hrun h.1), scanStep_stopped melts n _ hf]

/-- One pass never lowers `Tsmax`. -/
theorem scanStep_Tsmax_ge (melts : Melts) (n : Int) (s : ScanState) :
    (scanStep melts n s).Tsmax = s.Tsmax ∨ Dbl.gt (scanStep melts n s).Tsmax s.Tsmax := by
  rw [scanStep_Tsmax]
  by_cases h : s.running = true ∧ s.row < n - 1
  · rw [if_pos h]; exact updMax_ge _ _
  · rw [if_neg h]; exact Or.inl rfl

/-- Over any number of further passes `Tsmax` keeps its value or exceeds it. -/
theorem scanRun_Tsmax_ge (melts : Melts) (n : Int) (k m : Nat) :
    (scanRun melts n (k + m)).Tsmax = (scanRun melts n k).Tsmax
      ∨ Dbl.gt (scanRun melts n (k + m)).Tsmax (scanRun melts n k).Tsmax := by
  induction m with
  | zero => exact Or.inl rfl
  | succ m ih =>
    rw [← Nat.add_assoc, scanRun_succ]
    rcases scanStep_Tsmax_ge melts n (scanRun melts n (k + m)) with h | h
    · rw [h]; exact ih
    · rcases ih with ih | ih
      · rw [ih] at h; exact Or.inr h
      · exact Or.inr (Dbl.gt_trans h ih)

/-- `Tsmax` is always the `Ts` of row 0 or of a visited row. -/
theorem scanRun_Tsmax_mem (melts : Melts) (n : Int) (k : Nat) :
    ∃ i : Int, (i = 0 ∨ visited melts n i) ∧ (scanRun melts n k).Tsmax = Ts melts i := by
  induction k with
  | zero => exact ⟨0, Or.inl rfl, rfl⟩
  | succ k ih =>
    rw [scanRun_succ, scanStep_Tsmax]
    by_cases h : (scanRun melts n k).running = true ∧ (scanRun melts n k).row < n - 1
    · rw [if_pos h]
      by_cases hg : Dbl.gt (Ts melts (scanRun melts n k).row) (scanRun melts n k).Tsmax
      · rw [if_pos hg]
        obtain ⟨hrow, hpre⟩ := scanRun_running melts n k h.1
        refine ⟨(scanRun melts n k).row, Or.inr ⟨by omega, h.2, ?_⟩, rfl⟩
        intro j hj1 hj2
        exact (hpre j hj1 (by omega)).2
      · rw [if_neg hg]; exact ih
    · rw [if_neg h]; exact ih

/-- No row that the loop has dealt with has a `Ts` above `Tsmax`: row 0, the
visited rows up to the pass count, and every visited row once the loop has
been left. -/
theorem scanRun_Tsmax_bound (melts : Melts) (n : Int) (k : Nat) :
    ¬ Dbl.gt (Ts melts 0) (scanRun melts n k).Tsmax
      ∧ ∀ i : Int, visited melts n i → (i ≤ k ∨ (scanRun melts n k).running = false) →
          ¬ Dbl.gt (Ts melts i) (scanRun melts n k).Tsmax := by
  induction k with
  | zero =>
    refine ⟨Dbl.gt_irrefl _, ?_⟩
    intro i hv hi
    rcases hi with hi | hi
    · have := hv.1
      simp at hi
      omega
    · simp [scanRun_zero, scanInit] at hi
  | succ k ih =>
    obtain ⟨ih0, ihv⟩ := ih
    rw [scanRun_succ, scanStep_Tsmax]
    by_cases h : (scanRun melts n k).running = true ∧ (scanRun melts n k).row < n - 1
    · rw [if_pos h]
      obtain ⟨hrow, hpre⟩ := scanRun_running melts n k h.1
      refine ⟨updMax_not_gt _ _ _ ih0, ?_⟩
      intro i hv hi
      have hile : i ≤ (k : Int) + 1 := by
        rcases hi with hi | hi
        · push_cast at hi; exact hi
        · by_contra hcon
          have hlt : (scanRun melts n k).row < i := by omega
          by_cases hs : stopAt melts (scanRun melts n k).row
          · exact hv.2.2 _ (by omega) hlt hs
          · rw [scanStep_continue melts n _ h.1 h.2 hs] at hi
            simp at hi
      by_cases hik : i ≤ (k : Int)
      · exact updMax_not_gt _ _ _ (ihv i hv (Or.inl hik))
      · have hi' : i = (scanRun melts n k).row := by omega
        rw [hi']
        exact updMax_not_gt_self _ _
    · rw [if_neg h]
      refine ⟨ih0, ?_⟩
      intro i hv hi
      by_cases hrun : (scanRun melts n k).running = true
      · have hr : ¬ (scanRun melts n k).row < n - 1 := fun hr => h ⟨hrun, hr⟩
        obtain ⟨hrow, hpre⟩ := scanRun_running melts n k hrun
        have := hv.2.1
        exact ihv i hv (Or.inl (by omega))
      · have hf : (scanRun melts n k).running = false := by simpa using hrun
        exact ihv i hv (Or.inr hf)

/-- When the loop has been left, `Tsmax` is the maximum of `Ts` over row 0
and the visited rows: it is one of these values and none of them exceeds it. -/
theorem scan_Tsmax_max (melts : Melts) (n : Int) :
    (∃ i : Int, (i = 0 ∨ visited melts n i) ∧ (scan melts n).Tsmax = Ts melts i)
      ∧ ∀ i : Int, (i = 0 ∨ visited melts n i) → ¬ Dbl.gt (Ts melts i) (scan melts n).Tsmax := by
  refine ⟨scanRun_Tsmax_mem melts n _, ?_⟩
  intro i hi
  have hb := scanRun_Tsmax_bound melts n (n.toNat + 1)
  rcases hi with hi | hi
  · rw [hi]; exact hb.1
  · exact hb.2 i hi (Or.inr (scan_finished melts n))

/-! ## Evaluating the concrete tables -/

theorem toNat_two : Int.toNat 2 = 2 := rfl

theorem toNat_three : Int.toNat 3 = 3 := rfl

theorem toNat_four : Int.toNat 4 = 4 := rfl

theorem toNat_five : Int.toNat 5 = 5 := rfl

theorem tapatite_03 (S : ℝ) :
    tapatite S 0.3 = Dbl.num ((8400 + (S / 100 - 0.5) * 2.65e4)
      / (Real.log (41.82 / 0.3) + 3.1 + 12.4 * (S / 100 - 0.5)) - 273.15) := by
  unfold tapatite
  rw [if_neg (by norm_num)]

/-- A sufficient test for `tapatite(S, 0.3) > T`. -/
theorem tapatite_03_gt (S T : ℝ) (hc : 0 < 4.9338 + 3.1 + 12.4 * (S / 100 - 0.5))
    (hT : 0 ≤ T + 273.15)
    (h : (T + 273.15) * (4.9412 + 3.1 + 12.4 * (S / 100 - 0.5))
      < 8400 + (S / 100 - 0.5) * 2.65e4) :
    Dbl.gt (tapatite S 0.3) (Dbl.num T) := by
  rw [tapatite_03]
  show T < _
  have hL := log_139_4_lower
  have hU := log_139_4_upper
  have hD : 0 < Real.log (41.82 / 0.3) + 3.1 + 12.4 * (S / 100 - 0.5) := by linarith
  rw [lt_sub_iff_add_lt, lt_div_iff₀ hD]
  nlinarith

/-- A sufficient test for `tapatite(S, 0.3) <= T`. -/
theorem tapatite_03_not_gt (S T : ℝ) (hc : 0 < 4.9338 + 3.1 + 12.4 * (S / 100 - 0.5))
    (hT : 0 ≤ T + 273.15)
    (h : 8400 + (S / 100 - 0.5) * 2.65e4
      ≤ (T + 273.15) * (4.9338 + 3.1 + 12.4 * (S / 100 - 0.5))) :
    ¬ Dbl.gt (tapatite S 0.3) (Dbl.num T) := by
  rw [tapatite_03]
  show ¬ T < _
  have hL := log_139_4_lower
  have hD : 0 < Real.log (41.82 / 0.3) + 3.1 + 12.4 * (S / 100 - 0.5) := by linarith
  rw [not_lt, sub_le_iff_le_add, div_le_iff₀ hD]
  nlinarith

/-- At P2O5 = 0.3 the saturation temperature rises with SiO2. -/
theorem tapatite_03_mono (S1 S2 : ℝ) (h : S2 < S1)
    (hc2 : 0 < 4.9338 + 3.1 + 12.4 * (S2 / 100 - 0.5)) :
    Dbl.gt (tapatite S1 0.3) (tapatite S2 0.3) := by
  rw [tapatite_03, tapatite_03]
  show _ < _
  have hL := log_139_4_lower
  have hD1 : 0 < Real.log (41.82 / 0.3) + 3.1 + 12.4 * (S1 / 100 - 0.5) := by linarith
  have hD2 : 0 < Real.log (41.82 / 0.3) + 3.1 + 12.4 * (S2 / 100 - 0.5) := by linarith
  rw [sub_lt_sub_iff_right, div_lt_div_iff₀ hD2 hD1]
  have key : (8400 + (S1 / 100 - 0.5) * 2.65e4)
        * (Real.log (41.82 / 0.3) + 3.1 + 12.4 * (S2 / 100 - 0.5))
      - (8400 + (S2 / 100 - 0.5) * 2.65e4)
        * (Real.log (41.82 / 0.3) + 3.1 + 12.4 * (S1 / 100 - 0.5))
      = (S1 - S2) / 100 * (2.65e4 * (Real.log (41.82 / 0.3) + 3.1) - 8400 * 12.4) := by
    ring
  have hpos : 0 < (S1 - S2) / 100
      * (2.65e4 * (Real.log (41.82 / 0.3) + 3.1) - 8400 * 12.4) := by
    apply mul_pos
    · linarith
    · norm_num
      linarith
  linarith

theorem Dbl.not_eqZero_of_gt (a : Dbl) (T : ℝ) (h : Dbl.gt a (Dbl.num T)) (hT : 0 ≤ T) :
    ¬ Dbl.eqZero a := by
  cases a with
  | nan => exact id
  | num x =>
    intro hx
    have h1 : T < x := h
    have h2 : x = 0 := hx
    linarith

theorem Dbl.ne_of_gt {a b : Dbl} (h : Dbl.gt a b) : a ≠ b := by
  intro hab
  rw [hab] at h
  exact Dbl.gt_irrefl b h

open Classical in
theorem analyze_Tsat (ic : Composition) (melts : Melts) (n : Int) :
    (analyze ic melts n).Tsat
      = if Dbl.eqZero (scan melts n).Tsat then (scan melts n).Tsmax else (scan melts n).Tsat :=
  rfl

/-! ### Table `rowsX` -/

theorem rowsX_visited : visited (tableOf rowsX) 3 1 := by
  refine ⟨le_refl 1, by norm_num, ?_⟩
  intro j h1 h2
  omega

theorem rowsX_cross0 : crossAt (tableOf rowsX) 0 := by
  unfold crossAt Ts
  simp only [tableOf, rowsX, Int.toNat_zero, List.getD_cons_zero]
  exact tapatite_03_gt 50 700 (by norm_num) (by norm_num) (by norm_num)

theorem rowsX_cross1 : crossAt (tableOf rowsX) 1 := by
  unfold crossAt Ts
  simp only [tableOf, rowsX, Int.toNat_one, List.getD_cons_succ, List.getD_cons_zero]
  exact tapatite_03_gt 70 690 (by norm_num) (by norm_num) (by norm_num)

theorem rowsX_Ts_gt : Dbl.gt (Ts (tableOf rowsX) 1) (Ts (tableOf rowsX) 0) := by
  unfold Ts
  simp only [tableOf, rowsX, Int.toNat_zero, Int.toNat_one, List.getD_cons_succ,
    List.getD_cons_zero]
  exact tapatite_03_mono 70 50 (by norm_num) (by norm_num)

theorem rowsX_Tsat : (analyze icA (tableOf rowsX) 3).Tsat = Ts (tableOf rowsX) 1 := by
  have h0 : ¬ Dbl.eqZero (Ts (tableOf rowsX) 1) :=
    Dbl.not_eqZero_of_gt _ _ rowsX_cross1 (by norm_num [tableOf, rowsX])
  have h := scan_Tsat_first_cross (tableOf rowsX) 3 1 rowsX_visited rowsX_cross1 h0
    (fun i h1 h2 => by omega)
  rw [analyze_Tsat, h, if_neg h0]

/-! ### Table `rowsM` -/

theorem rowsM_no_stop : ∀ j : Int, 1 ≤ j → j < 4 - 1 → ¬ stopAt (tableOf rowsM) j := by
  intro j h1 h2
  unfold stopAt minPercentMelt
  interval_cases j <;> norm_num [tableOf, rowsM, toNat_two]

theorem rowsM_visited1 : visited (tableOf rowsM) 4 1 :=
  ⟨le_refl 1, by norm_num, fun j h1 h2 => by omega⟩

theorem rowsM_visited2 : visited (tableOf rowsM) 4 2 :=
  ⟨by norm_num, by norm_num, fun j h1 h2 => rowsM_no_stop j h1 (by omega)⟩

theorem rowsM_not_cross1 : ¬ crossAt (tableOf rowsM) 1 := by
  unfold crossAt Ts
  simp only [tableOf, rowsM, Int.toNat_one, List.getD_cons_succ, List.getD_cons_zero]
  exact tapatite_03_not_gt 70 1030 (by norm_num) (by norm_num) (by norm_num)

theorem rowsM_cross2 : crossAt (tableOf rowsM) 2 := by
  unfold crossAt Ts
  simp only [tableOf, rowsM, toNat_two, List.getD_cons_succ, List.getD_cons_zero]
  exact tapatite_03_gt 69.995 1020 (by norm_num) (by norm_num) (by norm_num)

theorem rowsM_Ts2_ne_zero : ¬ Dbl.eqZero (Ts (tableOf rowsM) 2) :=
  Dbl.not_eqZero_of_gt _ _ rowsM_cross2 (by norm_num [tableOf, rowsM, toNat_two])

theorem rowsM_first_cross : ∀ i : Int, 1 ≤ i → i < 2 → ¬ crossAt (tableOf rowsM) i := by
  intro i h1 h2
  have : i = 1 := by omega
  rw [this]
  exact rowsM_not_cross1

theorem rowsM_Tsat : (analyze icA (tableOf rowsM) 4).Tsat = Ts (tableOf rowsM) 2 := by
  have h := scan_Tsat_first_cross (tableOf rowsM) 4 2 rowsM_visited2 rowsM_cross2
    rowsM_Ts2_ne_zero rowsM_first_cross
  rw [analyze_Tsat, h, if_neg rowsM_Ts2_ne_zero]

theorem rowsM_Ts_gt : Dbl.gt (Ts (tableOf rowsM) 1) (Ts (tableOf rowsM) 2) := by
  unfold Ts
  simp only [tableOf, rowsM, Int.toNat_one, toNat_two, List.getD_cons_succ,
    List.getD_cons_zero]
  exact tapatite_03_mono 70 69.995 (by norm_num) (by norm_num)

theorem rowsM_row : (scan (tableOf rowsM) 4).row = 3 := by
  rw [scan_row_no_stop (tableOf rowsM) 4 (by norm_num) rowsM_no_stop]
  norm_num

/-! ### Tables `rowsB6` and `rowsB7` -/

theorem rowsB6_no_stop : ∀ j : Int, 1 ≤ j → j < 5 → ¬ stopAt (tableOf rowsB6) j := by
  intro j h1 h2
  unfold stopAt minPercentMelt
  interval_cases j <;> norm_num [tableOf, rowsB6, toNat_two, toNat_three, toNat_four]

theorem rowsB6_stop5 : stopAt (tableOf rowsB6) 5 := by
  unfold stopAt
  left
  norm_num [tableOf, rowsB6, toNat_four, toNat_five]

theorem rowsB6_row : (scan (tableOf rowsB6) 6).row = 5 := by
  rw [scan_row_no_stop (tableOf rowsB6) 6 (by norm_num)
    (fun j h1 h2 => rowsB6_no_stop j h1 (by omega))]
  norm_num

theorem rowsB7_no_stop : ∀ j : Int, 1 ≤ j → j < 5 → ¬ stopAt (tableOf rowsB7) j := by
  intro j h1 h2
  unfold stopAt minPercentMelt
  interval_cases j <;>
    norm_num [tableOf, rowsB7, rowsB6, toNat_two, toNat_three, toNat_four]

theorem rowsB7_stop5 : stopAt (tableOf rowsB7) 5 := by
  unfold stopAt
  left
  norm_num [tableOf, rowsB7, rowsB6, toNat_four, toNat_five]

theorem rowsB7_visited_le (i : Int) (h : visited (tableOf rowsB7) 7 i) : 1 ≤ i ∧ i ≤ 5 :=
  ⟨h.1, by have := h.2.1; omega⟩

theorem rowsB7_no_cross : ∀ i : Int, visited (tableOf rowsB7) 7 i → ¬ crossAt (tableOf rowsB7) i := by
  intro i hv
  obtain ⟨h1, h2⟩ := rowsB7_visited_le i hv
  unfold crossAt Ts
  interval_cases i
  · simp only [tableOf, rowsB7, rowsB6, Int.toNat_one, List.cons_append, List.nil_append,
      List.getD_cons_succ, List.getD_cons_zero]
    exact tapatite_03_not_gt 51 1690 (by norm_num) (by norm_num) (by norm_num)
  · simp only [tableOf, rowsB7, rowsB6, toNat_two, List.cons_append, List.nil_append,
      List.getD_cons_succ, List.getD_cons_zero]
    exact tapatite_03_not_gt 52 1680 (by norm_num) (by norm_num) (by norm_num)
  · simp only [tableOf, rowsB7, rowsB6, toNat_three, List.cons_append, List.nil_append,
      List.getD_cons_succ, List.getD_cons_zero]
    exact tapatite_03_not_gt 53 1670 (by norm_num) (by norm_num) (by norm_num)
  · simp only [tableOf, rowsB7, rowsB6, toNat_four, List.cons_append, List.nil_append,
      List.getD_cons_succ, List.getD_cons_zero]
    exact tapatite_03_not_gt 54 1660 (by norm_num) (by norm_num) (by norm_num)
  · simp only [tableOf, rowsB7, rowsB6, toNat_five, List.cons_append, List.nil_append,
      List.getD_cons_succ, List.getD_cons_zero]
    exact tapatite_03_not_gt 53.98 1650 (by norm_num) (by norm_num) (by norm_num)

theorem rowsB7_visited3 : visited (tableOf rowsB7) 7 3 :=
  ⟨by norm_num, by norm_num, fun j h1 h2 => rowsB7_no_stop j h1 (by omega)⟩

theorem rowsB7_visited5 : visited (tableOf rowsB7) 7 5 :=
  ⟨by norm_num, by norm_num, fun j h1 h2 => rowsB7_no_stop j h1 h2⟩

theorem rowsM_saturated :
    (tableOf rowsM 3).P2O5 > tapatiteP2O5 (tableOf rowsM 3).SiO2 (tableOf rowsM 3).T := by
  simp only [tableOf, rowsM, toNat_three, List.getD_cons_succ, List.getD_cons_zero]
  unfold tapatiteP2O5
  have hU := log_139_4_upper
  have hexp : Real.exp (Real.log (41.82 / 0.3)) = 41.82 / 0.3 := Real.exp_log (by norm_num)
  have hlt : Real.exp (Real.log (41.82 / 0.3))
      < Real.exp ((8400 + ((70.1 : ℝ) / 100 - 0.5) * 2.64e4) / (1010 + 273.15)
          - (3.1 + 12.4 * ((70.1 : ℝ) / 100 - 0.5))) := by
    apply Real.exp_lt_exp.mpr
    have : (4.9412 : ℝ) < (8400 + ((70.1 : ℝ) / 100 - 0.5) * 2.64e4) / (1010 + 273.15)
          - (3.1 + 12.4 * ((70.1 : ℝ) / 100 - 0.5)) := by norm_num
    linarith
  rw [hexp] at hlt
  rw [gt_iff_lt, div_lt_iff₀ (Real.exp_pos _)]
  rw [div_lt_iff₀ (by norm_num)] at hlt
  linarith

/-- When row 0 has `P2O5 > 0`, `Tsmax` is a number on every pass. -/
theorem scanRun_Tsmax_num (melts : Melts) (n : Int) (h : 0 < (melts 0).P2O5) (k : Nat) :
    ∃ m : ℝ, (scanRun melts n k).Tsmax = Dbl.num m := by
  have h0 : (scanRun melts n 0).Tsmax = Dbl.num _ := tapatite_of_pos _ _ h
  have hge := scanRun_Tsmax_ge melts n 0 k
  rw [Nat.zero_add] at hge
  rcases hge with hge | hge
  · exact ⟨_, hge.trans h0⟩
  · cases hk : (scanRun melts n k).Tsmax with
    | num m => exact ⟨m, rfl⟩
    | nan => rw [hk] at hge; exact hge.elim

/-! ## The scan: stopping row, `Tsat`, `Tsmax` and the final state -/

/-- C1, as stated, fails: in the table `rowsX` the first sample (row 0) has an
instantaneous saturation temperature above its own temperature, and the
reported `Tsat` is not that sample's saturation temperature. -/
theorem Tsat_skips_row_zero :
    crossAt (tableOf rowsX) 0
      ∧ (analyze icA (tableOf rowsX) 3).Tsat ≠ Ts (tableOf rowsX) 0 := by
  refine ⟨rowsX_cross0, ?_⟩
  rw [rowsX_Tsat]
  exact Dbl.ne_of_gt rowsX_Ts_gt

/-- C1, amended: `Tsat` is the instantaneous saturation temperature of the
first crossing row among the rows the loop body visits (row 1 onwards, up to
and including the row that triggers a `break`, below `meltsrows - 1`), when
that value is not exactly 0; when no visited row is a crossing row, `Tsat` is
`Tsmax`, the maximum of `Ts` over row 0 and the visited rows. -/
theorem modeled_Tsat (ic : Composition) (melts : Melts) (n : Int) :
    (∀ j : Int, visited melts n j → crossAt melts j → ¬ Dbl.eqZero (Ts melts j) →
        (∀ i : Int, 1 ≤ i → i < j → ¬ crossAt melts i) →
        (analyze ic melts n).Tsat = Ts melts j)
    ∧ ((∀ i : Int, visited melts n i → ¬ crossAt melts i) →
        (analyze ic melts n).Tsat = (scan melts n).Tsmax
        ∧ (∃ i : Int, (i = 0 ∨ visited melts n i) ∧ (scan melts n).Tsmax = Ts melts i)
        ∧ ∀ i : Int, (i = 0 ∨ visited melts n i) →
            ¬ Dbl.gt (Ts melts i) (scan melts n).Tsmax) := by
  constructor
  · intro j hv hx h0 hfirst
    have h := scan_Tsat_first_cross melts n j hv hx h0 hfirst
    rw [analyze_Tsat, h, if_neg h0]
  · intro hc
    have h := scan_Tsat_no_cross melts n hc
    have hz : Dbl.eqZero (scan melts n).Tsat := by rw [h]; rfl
    refine ⟨by rw [analyze_Tsat, if_pos hz], (scan_Tsmax_max melts n).1,
      (scan_Tsmax_max melts n).2⟩

theorem modeled_Tsat_witness :
    (analyze icA (tableOf rowsM) 4).Tsat = Ts (tableOf rowsM) 2
      ∧ (analyze icA (tableOf rowsB7) 7).Tsat = (scan (tableOf rowsB7) 7).Tsmax :=
  ⟨(modeled_Tsat icA (tableOf rowsM) 4).1 2 rowsM_visited2 rowsM_cross2 rowsM_Ts2_ne_zero
      rowsM_first_cross,
   ((modeled_Tsat icA (tableOf rowsB7) 7).2 rowsB7_no_cross).1⟩

/-- C2, as stated, fails: in the six-row table `rowsB6` SiO2 rises up to row 4
and drops by 0.02 at row 5, row 5 is the first row that meets a stop
condition, and the stopping row is 5, not 4. -/
theorem last_row_drop_not_detected :
    (tableOf rowsB6 5).SiO2 = (tableOf rowsB6 4).SiO2 - 0.02
      ∧ stopAt (tableOf rowsB6) 5
      ∧ (∀ j : Int, 1 ≤ j → j < 5 → ¬ stopAt (tableOf rowsB6) j)
      ∧ (scan (tableOf rowsB6) 6).row = 5
      ∧ (scan (tableOf rowsB6) 6).row ≠ 5 - 1 := by
  refine ⟨?_, rowsB6_stop5, rowsB6_no_stop, rowsB6_row, ?_⟩
  · norm_num [tableOf, rowsB6, toNat_four, toNat_five]
  · rw [rowsB6_row]
    norm_num

/-- C2, amended: when `k` with `1 <= k <= meltsrows - 2` is the first row that
meets a stop condition, the stopping row is `k - 1` and `Tf`, `P2O5f`,
`P2O5sat`, `Ff`, `MAp` are taken there; when no row `1 .. meltsrows - 2` meets
one (and there are at least two rows), the stopping row is the last row
`meltsrows - 1`, which the loop never tests.  In particular a table of at
least 7 rows whose SiO2 strictly increases up to row 4 and drops by 0.02 at
row 5, with melt mass at least 10 on rows 1 to 4, has stopping row 4. -/
theorem stopping_row_of_first_break (ic : Composition) (melts : Melts) (n : Int) :
    (∀ k : Int, 1 ≤ k → k < n - 1 → stopAt melts k →
        (∀ j : Int, 1 ≤ j → j < k → ¬ stopAt melts j) →
        (scan melts n).row = k - 1
        ∧ (analyze ic melts n).Tf = (melts (k - 1)).T
        ∧ (analyze ic melts n).P2O5f = (melts (k - 1)).P2O5
        ∧ (analyze ic melts n).P2O5sat = tapatiteP2O5 (melts (k - 1)).SiO2 (melts (k - 1)).T
        ∧ (analyze ic melts n).Ff = (melts (k - 1)).mass
        ∧ ((melts (k - 1)).P2O5 > tapatiteP2O5 (melts (k - 1)).SiO2 (melts (k - 1)).T →
            (analyze ic melts n).MAp = (melts (k - 1)).mass / 100
              * ((melts (k - 1)).P2O5 - tapatiteP2O5 (melts (k - 1)).SiO2 (melts (k - 1)).T))
        ∧ (¬ (melts (k - 1)).P2O5 > tapatiteP2O5 (melts (k - 1)).SiO2 (melts (k - 1)).T →
            (analyze ic melts n).MAp = 0))
    ∧ (2 ≤ n → (∀ j : Int, 1 ≤ j → j < n - 1 → ¬ stopAt melts j) →
        (scan melts n).row = n - 1
        ∧ (analyze ic melts n).Tf = (melts (n - 1)).T
        ∧ (analyze ic melts n).P2O5f = (melts (n - 1)).P2O5
        ∧ (analyze ic melts n).P2O5sat = tapatiteP2O5 (melts (n - 1)).SiO2 (melts (n - 1)).T
        ∧ (analyze ic melts n).Ff = (melts (n - 1)).mass)
    ∧ (7 ≤ n → (∀ j : Int, 1 ≤ j → j ≤ 4 → (melts (j - 1)).SiO2 < (melts j).SiO2) →
        (∀ j : Int, 1 ≤ j → j ≤ 4 → minPercentMelt ≤ (melts j).mass) →
        (melts 5).SiO2 = (melts 4).SiO2 - 0.02 →
        (scan melts n).row = 4) := by
  refine ⟨?_, ?_, ?_⟩
  · intro k h1 h2 hs hfirst
    have hrow := scan_row_of_stop melts n k ⟨h1, h2, hfirst⟩ hs
    simp only [analyze, hrow]
    refine ⟨trivial, trivial, trivial, trivial, trivial, ?_, ?_⟩
    · intro h
      rw [if_pos h]
    · intro h
      rw [if_neg h]
  · intro hn hs
    have hrow := scan_row_no_stop melts n hn hs
    simp only [analyze, hrow]
    exact ⟨trivial, trivial, trivial, trivial, trivial⟩
  · intro hn hinc hmass hdrop
    have hv : visited melts n 5 := by
      refine ⟨by norm_num, by omega, ?_⟩
      intro j h1 h2 hs
      rcases hs with hs | hs
      · have := hinc j h1 (by omega)
        linarith
      · have := hmass j h1 (by omega)
        linarith
    have hs : stopAt melts 5 := by
      left
      have e : (5 : Int) - 1 = 4 := by norm_num
      rw [e, hdrop]
      linarith
    rw [scan_row_of_stop melts n 5 hv hs]
    norm_num

theorem stopping_row_of_first_break_witness :
    (scan (tableOf rowsB7) 7).row = 5 - 1
      ∧ (analyze icA (tableOf rowsB7) 7).Tf = (tableOf rowsB7 (5 - 1)).T :=
  ⟨((stopping_row_of_first_break icA (tableOf rowsB7) 7).1 5 (by norm_num) (by norm_num)
      rowsB7_stop5 rowsB7_no_stop).1,
   ((stopping_row_of_first_break icA (tableOf rowsB7) 7).1 5 (by norm_num) (by norm_num)
      rowsB7_stop5 rowsB7_no_stop).2.1⟩

/-- C5: the saturated apatite mass is computed at the stopping row, with
`P2O5sat` the inverse closed form (constant 26400) at that row's SiO2 and
temperature: `mass/100 * (P2O5 - P2O5sat)` when the row's P2O5 exceeds
`P2O5sat`, and 0 otherwise. -/
theorem MAp_at_stopping_row (ic : Composition) (melts : Melts) (n : Int) :
    (∀ S T : ℝ, tapatiteP2O5 S T
        = 41.82 / Real.exp ((8400 + (S / 100 - 0.5) * 26400) / (T + 273.15)
            - (3.1 + 12.4 * (S / 100 - 0.5))))
    ∧ (analyze ic melts n).P2O5sat
        = tapatiteP2O5 (melts (scan melts n).row).SiO2 (melts (scan melts n).row).T
    ∧ ((melts (scan melts n).row).P2O5 > (analyze ic melts n).P2O5sat →
        (analyze ic melts n).MAp = (melts (scan melts n).row).mass / 100
          * ((melts (scan melts n).row).P2O5 - (analyze ic melts n).P2O5sat))
    ∧ (¬ (melts (scan melts n).row).P2O5 > (analyze ic melts n).P2O5sat →
        (analyze ic melts n).MAp = 0) := by
  refine ⟨?_, rfl, ?_, ?_⟩
  · intro S T
    unfold tapatiteP2O5
    norm_num
  · intro h
    simp only [analyze] at h ⊢
    rw [if_pos h]
  · intro h
    simp only [analyze] at h ⊢
    rw [if_neg h]

theorem MAp_at_stopping_row_witness :
    (analyze icA (tableOf rowsM) 4).MAp
      = (tableOf rowsM (scan (tableOf rowsM) 4).row).mass / 100
        * ((tableOf rowsM (scan (tableOf rowsM) 4).row).P2O5
          - (analyze icA (tableOf rowsM) 4).P2O5sat) :=
  (MAp_at_stopping_row icA (tableOf rowsM) 4).2.2.1 (by
    have h : (analyze icA (tableOf rowsM) 4).P2O5sat
        = tapatiteP2O5 (tableOf rowsM (scan (tableOf rowsM) 4).row).SiO2
            (tableOf rowsM (scan (tableOf rowsM) 4).row).T := rfl
    rw [h, rowsM_row]
    exact rowsM_saturated)

/-- C6, as stated, fails: in the table `rowsM` row 1 is scanned and is not a
crossing sample, and its instantaneous saturation temperature is above the
reported `Tsat`. -/
theorem Tsat_below_noncrossing_sample :
    visited (tableOf rowsM) 4 1 ∧ ¬ crossAt (tableOf rowsM) 1
      ∧ Dbl.gt (Ts (tableOf rowsM) 1) (analyze icA (tableOf rowsM) 4).Tsat
      ∧ ¬ Dbl.ge (analyze icA (tableOf rowsM) 4).Tsat (Ts (tableOf rowsM) 1) := by
  refine ⟨rowsM_visited1, rowsM_not_cross1, ?_, ?_⟩
  · rw [rowsM_Tsat]
    exact rowsM_Ts_gt
  · rw [rowsM_Tsat]
    have h := rowsM_Ts_gt
    revert h
    cases Ts (tableOf rowsM) 1 with
    | nan => exact fun h => h.elim
    | num a =>
      cases Ts (tableOf rowsM) 2 with
      | nan => exact fun h => h.elim
      | num b =>
        intro h hge
        have h1 : a > b := h
        have h2 : b ≥ a := hge
        linarith

/-- C6, amended: over the passes of the loop `Tsmax` never decreases (a later
value equals or exceeds every earlier one); and when no visited row is a
crossing sample, no `Ts` of row 0 or of a visited row exceeds the reported
`Tsat`, which is then greater than or equal to each such `Ts` that is a
number, provided row 0 has `P2O5 > 0`. -/
theorem Tsmax_monotone_Tsat_bound (ic : Composition) (melts : Melts) (n : Int) :
    (∀ k m : Nat, (scanRun melts n (k + m)).Tsmax = (scanRun melts n k).Tsmax
        ∨ Dbl.gt (scanRun melts n (k + m)).Tsmax (scanRun melts n k).Tsmax)
    ∧ ((∀ i : Int, visited melts n i → ¬ crossAt melts i) →
        ∀ i : Int, (i = 0 ∨ visited melts n i) →
          ¬ Dbl.gt (Ts melts i) (analyze ic melts n).Tsat
          ∧ (0 < (melts 0).P2O5 → 0 < (melts i).P2O5 →
              Dbl.ge (analyze ic melts n).Tsat (Ts melts i))) := by
  refine ⟨scanRun_Tsmax_ge melts n, ?_⟩
  intro hc i hi
  have h := scan_Tsat_no_cross melts n hc
  have hz : Dbl.eqZero (scan melts n).Tsat := by rw [h]; rfl
  have hT : (analyze ic melts n).Tsat = (scan melts n).Tsmax := by
    rw [analyze_Tsat, if_pos hz]
  have hb := (scan_Tsmax_max melts n).2 i hi
  rw [hT]
  refine ⟨hb, ?_⟩
  intro h0 hp
  obtain ⟨m, hm⟩ := scanRun_Tsmax_num melts n h0 (n.toNat + 1)
  have hm' : (scan melts n).Tsmax = Dbl.num m := hm
  have hi' : Ts melts i = Dbl.num _ := tapatite_of_pos _ _ hp
  rw [hm', hi'] at hb ⊢
  exact not_lt.mp hb

theorem Tsmax_monotone_Tsat_bound_witness :
    ¬ Dbl.gt (Ts (tableOf rowsB7) 3) (analyze icA (tableOf rowsB7) 7).Tsat
      ∧ Dbl.ge (analyze icA (tableOf rowsB7) 7).Tsat (Ts (tableOf rowsB7) 3) :=
  ⟨((Tsmax_monotone_Tsat_bound icA (tableOf rowsB7) 7).2 rowsB7_no_cross 3
      (Or.inr rowsB7_visited3)).1,
   ((Tsmax_monotone_Tsat_bound icA (tableOf rowsB7) 7).2 rowsB7_no_cross 3
      (Or.inr rowsB7_visited3)).2
      (by norm_num [tableOf, rowsB7, rowsB6])
      (by norm_num [tableOf, rowsB7, rowsB6, toNat_three])⟩

/-- C9, as stated, fails: for the one task record `icA` (SiO2 = 50,
P2O5 = 0.3) the tables `rowsX` and `rowsM` give different `Tsatbulk`, and
the one of `rowsM` is not `tapatite` of the record's SiO2 and P2O5. -/
theorem Tsatbulk_depends_on_trace :
    (analyze icA (tableOf rowsX) 3).Tsatbulk ≠ (analyze icA (tableOf rowsM) 4).Tsatbulk
      ∧ (analyze icA (tableOf rowsM) 4).Tsatbulk ≠ tapatite (icA 0) (icA 13) := by
  have h : Dbl.gt (tapatite 69.9 0.3) (tapatite 50 0.3) :=
    tapatite_03_mono 69.9 50 (by norm_num) (by norm_num)
  have hX : (analyze icA (tableOf rowsX) 3).Tsatbulk = tapatite 50 0.3 := by
    simp only [analyze, tableOf, rowsX, Int.toNat_zero, List.getD_cons_zero]
  have hM : (analyze icA (tableOf rowsM) 4).Tsatbulk = tapatite 69.9 0.3 := by
    simp only [analyze, tableOf, rowsM, Int.toNat_zero, List.getD_cons_zero]
  have h0 : icA 0 = 50 := by simp [icA]
  have h13 : icA 13 = 0.3 := by
    unfold icA
    rw [if_neg (by decide), if_pos rfl]
  rw [hX, hM, h0, h13]
  exact ⟨(Dbl.ne_of_gt h).symm, Dbl.ne_of_gt h⟩

/-- C9, amended: `Tsatbulk` is `tapatite` of the SiO2 and P2O5 of row 0 of the
liquid table; it is the same for any two task records and any two tables that
agree on these two values of row 0, whatever their other rows and row counts. -/
theorem Tsatbulk_from_first_row (ic ic' : Composition) (melts melts' : Melts) (n n' : Int)
    (hS : (melts 0).SiO2 = (melts' 0).SiO2) (hP : (melts 0).P2O5 = (melts' 0).P2O5) :
    (analyze ic melts n).Tsatbulk = tapatite (melts 0).SiO2 (melts 0).P2O5
      ∧ (analyze ic melts n).Tsatbulk = (analyze ic' melts' n').Tsatbulk := by
  refine ⟨rfl, ?_⟩
  simp only [analyze, hS, hP]

theorem Tsatbulk_from_first_row_witness :
    (analyze icA (tableOf rowsB6) 6).Tsatbulk
        = tapatite (tableOf rowsB6 0).SiO2 (tableOf rowsB6 0).P2O5
      ∧ (analyze icA (tableOf rowsB6) 6).Tsatbulk = (analyze stop (tableOf rowsX) 3).Tsatbulk :=
  Tsatbulk_from_first_row icA stop (tableOf rowsB6) (tableOf rowsX) 6 3
    (by simp [tableOf, rowsB6, rowsX]) (by simp [tableOf, rowsB6, rowsX])

/-- C10: with at least two rows in the liquid table, the loop is left with
`0 <= row <= meltsrows - 1`, however it ends. -/
theorem stopping_row_in_table (melts : Melts) (n : Int) (hn : 2 ≤ n) :
    (scan melts n).running = false
      ∧ 0 ≤ (scan melts n).row ∧ (scan melts n).row ≤ n - 1 :=
  ⟨scan_finished melts n, (scanRun_row_bounds melts n hn _).1,
    (scanRun_row_bounds melts n hn _).2.1⟩

theorem stopping_row_in_table_witness :
    (scan (tableOf rowsB7) 7).running = false
      ∧ 0 ≤ (scan (tableOf rowsB7) 7).row ∧ (scan (tableOf rowsB7) 7).row ≤ 7 - 1 :=
  stopping_row_in_table (tableOf rowsB7) 7 (by norm_num)

/-! ## The root rank and the workers -/

theorem workerTask_stop_iff (runmelts : Composition → Option (Melts × Int)) (ic : Composition) :
    workerTask runmelts ic = WorkerOutcome.stop ↔ ic 0 < 0 := by
  unfold workerTask isStop
  by_cases h : ic 0 < 0
  · simp [h]
  · rw [if_neg h]
    constructor
    · intro hm
      cases hr : runmelts ic with
      | none => rw [hr] at hm; cases hm
      | some p => rw [hr] at hm; cases hm
    · intro h'
      exact absurd h' h

/-! ### Every run is finite -/

theorem sum_Ico_change (f g : Nat → Nat) (a b w : Nat) (hw : w ∈ Finset.Ico a b)
    (h : ∀ x : Nat, x ≠ w → g x = f x) :
    (Finset.Ico a b).sum g + f w = (Finset.Ico a b).sum f + g w := by
  rw [← Finset.add_sum_erase _ f hw, ← Finset.add_sum_erase _ g hw,
    Finset.sum_congr rfl (fun x hx => h x (Finset.ne_of_mem_erase hx))]
  ring

theorem sum_Ico_same (f g : Nat → Nat) (a b : Nat)
    (h : ∀ x : Nat, x ∈ Finset.Ico a b → g x = f x) :
    (Finset.Ico a b).sum g = (Finset.Ico a b).sum f :=
  Finset.sum_congr rfl h

theorem pcWeight_idle : pcWeight WorkerPc.idle = 1 := rfl

theorem pcWeight_awaiting : pcWeight WorkerPc.awaiting = 0 := rfl

theorem pcWeight_running (ic : Composition) : pcWeight (WorkerPc.running ic) = 2 := rfl

theorem pcWeight_terminated : pcWeight WorkerPc.terminated = 0 := rfl

/-- Every step lowers `stepsLeft`: no run of the system is infinite. -/
theorem step_decreases (world_size : Nat) (data : List Composition) (s s' : Sys)
    (h : Step world_size data s s') :
    stepsLeft world_size data s' < stepsLeft world_size data s := by
  cases h with
  | announce w hw h =>
    have key := sum_Ico_change
      (fun x => pcWeight (s.worker x) + 3 * (s.inbox x).length)
      (fun x => pcWeight (Function.update s.worker w WorkerPc.awaiting x)
        + 3 * (s.inbox x).length) 1 world_size w (Finset.mem_Ico.mpr hw)
      (fun x hx => by simp only [Function.update_noteq hx])
    simp only [Function.update_same, h, pcWeight_idle, pcWeight_awaiting, pcWeight_running,
      pcWeight_terminated] at key
    unfold stepsLeft
    simp only
    omega
  | receive_stop w hw ic rest h hin hstop =>
    have key := sum_Ico_change
      (fun x => pcWeight (s.worker x) + 3 * (s.inbox x).length)
      (fun x => pcWeight (Function.update s.worker w WorkerPc.terminated x)
        + 3 * (Function.update s.inbox w rest x).length) 1 world_size w (Finset.mem_Ico.mpr hw)
      (fun x hx => by simp only [Function.update_noteq hx])
    simp only [Function.update_same, h, hin, pcWeight_idle, pcWeight_awaiting, pcWeight_running,
      pcWeight_terminated, List.length_cons] at key
    unfold stepsLeft
    simp only
    omega
  | receive_task w hw ic rest h hin hstop =>
    have key := sum_Ico_change
      (fun x => pcWeight (s.worker x) + 3 * (s.inbox x).length)
      (fun x => pcWeight (Function.update s.worker w (WorkerPc.running ic) x)
        + 3 * (Function.update s.inbox w rest x).length) 1 world_size w (Finset.mem_Ico.mpr hw)
      (fun x hx => by simp only [Function.update_noteq hx])
    simp only [Function.update_same, h, hin, pcWeight_idle, pcWeight_awaiting, pcWeight_running,
      pcWeight_terminated, List.length_cons] at key
    unfold stepsLeft
    simp only
    omega
  | finish w hw ic h =>
    have key := sum_Ico_change
      (fun x => pcWeight (s.worker x) + 3 * (s.inbox x).length)
      (fun x => pcWeight (Function.update s.worker w WorkerPc.idle x)
        + 3 * (s.inbox x).length) 1 world_size w (Finset.mem_Ico.mpr hw)
      (fun x hx => by simp only [Function.update_noteq hx])
    simp only [Function.update_same, h, pcWeight_idle, pcWeight_awaiting, pcWeight_running,
      pcWeight_terminated] at key
    unfold stepsLeft
    simp only
    omega
  | dispatch w hw i d hr hd ha hp =>
    have key := sum_Ico_change
      (fun x => pcWeight (s.worker x) + 3 * (s.inbox x).length)
      (fun x => pcWeight (s.worker x)
        + 3 * (Function.update s.inbox w (s.inbox w ++ [d]) x).length) 1 world_size w
      (Finset.mem_Ico.mpr hw)
      (fun x hx => by simp only [Function.update_noteq hx])
    simp only [Function.update_same, List.length_append, List.length_singleton] at key
    have hi : i < data.length := by
      rcases Nat.lt_or_ge i data.length with hlt | hge
      · exact hlt
      · rw [List.get?_eq_none.mpr hge] at hd
        cases hd
    unfold stepsLeft
    simp only [hr, rootWeight]
    omega
  | waitall hr hall =>
    unfold stepsLeft
    simp only [hr, rootWeight]
    omega
  | stop_send j hr hj =>
    unfold stepsLeft
    simp only [hr, rootWeight]
    by_cases hj1 : 1 ≤ j
    · have key := sum_Ico_change
        (fun x => pcWeight (s.worker x) + 3 * (s.inbox x).length)
        (fun x => pcWeight (s.worker x)
          + 3 * (Function.update s.inbox j (s.inbox j ++ [stop]) x).length) 1 world_size j
        (Finset.mem_Ico.mpr ⟨hj1, hj⟩)
        (fun x hx => by simp only [Function.update_noteq hx])
      simp only [Function.update_same, List.length_append, List.length_singleton] at key
      omega
    · have key := sum_Ico_same
        (fun x => pcWeight (s.worker x) + 3 * (s.inbox x).length)
        (fun x => pcWeight (s.worker x)
          + 3 * (Function.update s.inbox j (s.inbox j ++ [stop]) x).length) 1 world_size
        (fun x hx => by
          have hxj : x ≠ j := by
            have := (Finset.mem_Ico.mp hx).1
            omega
          simp only [Function.update_noteq hxj])
      omega

/-! ### The invariant -/

theorem isStop_stop : isStop stop := by
  unfold isStop stop
  norm_num

theorem inv_init (world_size : Nat) (data : List Composition) :
    Inv world_size data (sysInit world_size) := by
  constructor
  · intro i hi
    have h0 : i = 0 := by
      simp only [sysInit, RootPc.dispatch.injEq] at hi
      exact hi.symm
    subst h0
    refine ⟨Nat.zero_le _, rfl, ?_, ?_⟩
    · intro p hp
      simp [sysInit] at hp
    · intro w h1 h2
      refine ⟨?_, Or.inl ⟨rfl, rfl, rfl⟩⟩
      simp [sysInit, h1, h2]
  · intro j hj
    simp [sysInit] at hj

/-- A worker other than the one that moved is untouched. -/
theorem workerOK_of_eq (s s' : Sys) (w : Nat) (ha : s'.armed w = s.armed w)
    (hp : s'.pending w = s.pending w) (hi : s'.inbox w = s.inbox w)
    (hk : s'.worker w = s.worker w) (h : WorkerOK s w) : WorkerOK s' w := by
  unfold WorkerOK at h ⊢
  rw [ha, hp, hi, hk]
  exact h

theorem inv_step (world_size : Nat) (data : List Composition) (hW : 1 ≤ world_size)
    (hdata : ∀ d ∈ data, ¬ isStop d) (s s' : Sys)
    (hinv : Inv world_size data s) (hstep : Step world_size data s s') :
    Inv world_size data s' := by
  obtain ⟨hD, hS⟩ := hinv
  cases hstep with
  | announce w hw h =>
    constructor
    · intro i hi
      obtain ⟨h1, h2, h3, h4⟩ := hD i hi
      refine ⟨h1, h2, h3, ?_⟩
      intro w' hw1 hw2
      by_cases hne : w' = w
      · subst hne
        obtain ⟨ha, hc⟩ := h4 w' hw1 hw2
        refine ⟨ha, Or.inr (Or.inl ?_)⟩
        rcases hc with ⟨_, c2, c3⟩ | ⟨c1, _, _⟩ | ⟨c1, _, _⟩ | ⟨⟨ic, c1⟩, _, _⟩
        · simp only [Function.update_same, c2, c3]
          exact ⟨trivial, trivial, trivial⟩
        · rw [h] at c1; cases c1
        · rw [h] at c1; cases c1
        · rw [h] at c1; cases c1
      · exact workerOK_of_eq s _ w' rfl (Function.update_noteq hne _ _) rfl
          (Function.update_noteq hne _ _) (h4 w' hw1 hw2)
    · intro j hj
      obtain ⟨_, _, _, h4⟩ := hS j hj
      obtain ⟨_, _, c3, c4⟩ := h4 w hw.1 hw.2
      exfalso
      rcases Nat.lt_or_ge w j with hlt | hge
      · rcases c4 hlt with ⟨c1, _⟩ | ⟨c1, _⟩
        · rw [h] at c1; cases c1
        · rw [h] at c1; cases c1
      · have c1 := (c3 hge).1
        rw [h] at c1; cases c1
  | receive_stop w hw ic rest h hin hstop =>
    constructor
    · intro i hi
      obtain ⟨_, _, _, h4⟩ := hD i hi
      obtain ⟨_, hc⟩ := h4 w hw.1 hw.2
      exfalso
      rcases hc with ⟨c1, _, _⟩ | ⟨_, _, c3⟩ | ⟨_, _, d, c3, c4⟩ | ⟨⟨ic', c1⟩, _, _⟩
      · rw [h] at c1; cases c1
      · rw [hin] at c3; cases c3
      · rw [hin] at c3
        injection c3 with e1 e2
        rw [e1] at hstop
        exact c4 hstop
      · rw [h] at c1; cases c1
    · intro j hj
      obtain ⟨h1, h2, h3, h4⟩ := hS j hj
      refine ⟨h1, h2, h3, ?_⟩
      intro w' hw1 hw2
      obtain ⟨a1, a2, a3, a4⟩ := h4 w' hw1 hw2
      by_cases hne : w' = w
      · subst hne
        refine ⟨a1, a2, ?_, ?_⟩
        · intro hge
          have c := (a3 hge).2
          rw [hin] at c; cases c
        · intro hlt
          right
          rcases a4 hlt with ⟨_, c2⟩ | ⟨c1, _⟩
          · rw [hin] at c2
            injection c2 with e1 e2
            simp only [Function.update_same, e2]
            exact ⟨trivial, trivial⟩
          · rw [h] at c1; cases c1
      · refine ⟨a1, a2, ?_, ?_⟩
        · intro hge
          simp only [Function.update_noteq hne]
          exact a3 hge
        · intro hlt
          simp only [Function.update_noteq hne]
          exact a4 hlt
  | receive_task w hw ic rest h hin hstop =>
    constructor
    · intro i hi
      obtain ⟨h1, h2, h3, h4⟩ := hD i hi
      refine ⟨h1, h2, h3, ?_⟩
      intro w' hw1 hw2
      by_cases hne : w' = w
      · subst hne
        obtain ⟨ha, hc⟩ := h4 w' hw1 hw2
        refine ⟨ha, Or.inr (Or.inr (Or.inr ?_))⟩
        rcases hc with ⟨c1, _, _⟩ | ⟨_, _, c3⟩ | ⟨_, c2, d, c3, _⟩ | ⟨⟨ic', c1⟩, _, _⟩
        · rw [h] at c1; cases c1
        · rw [hin] at c3; cases c3
        · rw [hin] at c3
          injection c3 with e1 e2
          exact ⟨⟨ic, Function.update_same _ _ _⟩, c2,
            (Function.update_same _ _ _).trans e2⟩
        · rw [h] at c1; cases c1
      · exact workerOK_of_eq s _ w' rfl rfl (Function.update_noteq hne _ _)
          (Function.update_noteq hne _ _) (h4 w' hw1 hw2)
    · intro j hj
      obtain ⟨_, _, _, h4⟩ := hS j hj
      obtain ⟨_, _, c3, c4⟩ := h4 w hw.1 hw.2
      exfalso
      rcases Nat.lt_or_ge w j with hlt | hge
      · rcases c4 hlt with ⟨_, c2⟩ | ⟨c1, _⟩
        · rw [hin] at c2
          injection c2 with e1 e2
          rw [e1] at hstop
          exact hstop isStop_stop
        · rw [h] at c1; cases c1
      · have c := (c3 hge).2
        rw [hin] at c; cases c
  | finish w hw ic h =>
    constructor
    · intro i hi
      obtain ⟨h1, h2, h3, h4⟩ := hD i hi
      refine ⟨h1, h2, h3, ?_⟩
      intro w' hw1 hw2
      by_cases hne : w' = w
      · subst hne
        obtain ⟨ha, hc⟩ := h4 w' hw1 hw2
        refine ⟨ha, Or.inl ?_⟩
        rcases hc with ⟨c1, _, _⟩ | ⟨c1, _, _⟩ | ⟨c1, _, _⟩ | ⟨_, c2, c3⟩
        · rw [h] at c1; cases c1
        · rw [h] at c1; cases c1
        · rw [h] at c1; cases c1
        · simp only [Function.update_same]
          exact ⟨trivial, c2, c3⟩
      · exact workerOK_of_eq s _ w' rfl rfl rfl (Function.update_noteq hne _ _)
          (h4 w' hw1 hw2)
    · intro j hj
      obtain ⟨_, _, _, h4⟩ := hS j hj
      obtain ⟨_, _, c3, c4⟩ := h4 w hw.1 hw.2
      exfalso
      rcases Nat.lt_or_ge w j with hlt | hge
      · rcases c4 hlt with ⟨c1, _⟩ | ⟨c1, _⟩
        · rw [h] at c1; cases c1
        · rw [h] at c1; cases c1
      · have c1 := (c3 hge).1
        rw [h] at c1; cases c1
  | dispatch w hw i d hr hd ha hp =>
    obtain ⟨h1, h2, h3, h4⟩ := hD i hr
    have hi : i < data.length := by
      rcases Nat.lt_or_ge i data.length with hlt | hge
      · exact hlt
      · rw [List.get?_eq_none.mpr hge] at hd
        cases hd
    have hmem : d ∈ data := List.get?_mem hd
    constructor
    · intro i' hi'
      have e : i' = i + 1 := by
        simp only [RootPc.dispatch.injEq] at hi'
        exact hi'.symm
      subst e
      refine ⟨hi, ?_, ?_, ?_⟩
      · have hd' : data[i]? = some d := by
          rw [← List.get?_eq_getElem?]
          exact hd
        simp only [List.map_append, List.map_cons, List.map_nil, h2]
        rw [List.take_succ, hd']
        rfl
      · intro p hp'
        rcases List.mem_append.mp hp' with hp' | hp'
        · exact h3 p hp'
        · simp only [List.mem_singleton] at hp'
          rw [hp']
          exact hw
      · intro w' hw1 hw2
        by_cases hne : w' = w
        · subst hne
          obtain ⟨_, hc⟩ := h4 w' hw1 hw2
          refine ⟨by simp only [Function.update_same], Or.inr (Or.inr (Or.inl ?_))⟩
          rcases hc with ⟨_, c2, _⟩ | ⟨c1, c2, c3⟩ | ⟨_, c2, _⟩ | ⟨_, c2, _⟩
          · omega
          · refine ⟨c1, ?_, d, ?_, hdata d hmem⟩
            · show Function.update s.pending w' (s.pending w' - 1) w' = 0
              rw [Function.update_same, c2]
            · show Function.update s.inbox w' (s.inbox w' ++ [d]) w' = [d]
              rw [Function.update_same, c3]
              rfl
          · omega
          · omega
        · refine workerOK_of_eq s _ w' ?_ (Function.update_noteq hne _ _)
            (Function.update_noteq hne _ _) rfl (h4 w' hw1 hw2)
          simp only [Function.update_noteq hne]
    · intro j hj
      cases hj
  | waitall hr hall =>
    obtain ⟨h1, h2, h3, h4⟩ := hD data.length hr
    constructor
    · intro i hi
      cases hi
    · intro j hj
      have e : j = 1 := by
        simp only [RootPc.stopping.injEq] at hj
        exact hj.symm
      subst e
      refine ⟨le_refl 1, hW, ⟨s.sent, ?_, ?_, h3⟩, ?_⟩
      · simp
      · rw [h2, List.take_length]
      · intro w hw1 hw2
        obtain ⟨ha, hc⟩ := h4 w hw1 hw2
        have hp := hall w hw1 hw2 ha
        rcases hc with ⟨_, c2, _⟩ | ⟨c1, c2, c3⟩ | ⟨_, c2, _⟩ | ⟨_, c2, _⟩
        · omega
        · refine ⟨?_, ?_, ?_, ?_⟩
          · simp only [hw1, hw2, and_self, if_true]
          · simp only [hw1, hw2, ha, and_self, if_true, c2]
          · intro _
            exact ⟨c1, c3⟩
          · intro hlt
            omega
        · omega
        · omega
  | stop_send j hr hj =>
    obtain ⟨h1, h2, ⟨pre, p1, p2, p3⟩, h4⟩ := hS j hr
    constructor
    · intro i hi
      cases hi
    · intro j' hj'
      have e : j' = j + 1 := by
        simp only [RootPc.stopping.injEq] at hj'
        exact hj'.symm
      subst e
      refine ⟨by omega, by omega, ⟨pre, ?_, p2, p3⟩, ?_⟩
      · simp only [p1, List.append_assoc, Nat.add_sub_cancel]
        congr 1
        have hj1 : j = (j - 1) + 1 := by omega
        conv_rhs => rw [hj1, List.range'_1_concat]
        simp only [List.map_append, List.map_cons, List.map_nil]
        congr 3
        omega
      · intro w hw1 hw2
        obtain ⟨a1, a2, a3, a4⟩ := h4 w hw1 hw2
        refine ⟨a1, a2, ?_, ?_⟩
        · intro hge
          have hne : w ≠ j := by omega
          simp only [Function.update_noteq hne]
          exact a3 (by omega)
        · intro hlt
          by_cases hne : w = j
          · subst hne
            obtain ⟨c1, c2⟩ := a3 (le_refl w)
            left
            simp only [Function.update_same, c2]
            exact ⟨c1, rfl⟩
          · simp only [Function.update_noteq hne]
            exact a4 (by omega)

/-- The invariant holds in every state the system can reach. -/
theorem inv_reach (world_size : Nat) (data : List Composition) (hW : 1 ≤ world_size)
    (hdata : ∀ d ∈ data, ¬ isStop d) (s : Sys) (h : Reach world_size data s) :
    Inv world_size data s := by
  unfold Reach at h
  induction h with
  | refl => exact inv_init world_size data
  | tail _ hstep ih => exact inv_step world_size data hW hdata _ _ ih hstep

/-! ### No state short of the end is blocked -/

theorem progress (world_size : Nat) (data : List Composition) (hW : 2 ≤ world_size)
    (s : Sys) (hinv : Inv world_size data s) :
    Final world_size s ∨ ∃ s' : Sys, Step world_size data s s' := by
  obtain ⟨hD, hS⟩ := hinv
  cases hroot : s.root with
  | dispatch i =>
    obtain ⟨h1, _, _, h4⟩ := hD i hroot
    right
    by_cases hB : ∀ w : Nat, 1 ≤ w → w < world_size →
        s.worker w = WorkerPc.awaiting ∧ s.pending w = 1
    · rcases Nat.lt_or_ge i data.length with hlt | hge
      · have hd : data.get? i = some (data.get ⟨i, hlt⟩) := List.get?_eq_get hlt
        have h1w := hB 1 (le_refl 1) (by omega)
        exact ⟨_, Step.dispatch s 1 ⟨le_refl 1, by omega⟩ i _ hroot hd
          (h4 1 (le_refl 1) (by omega)).1 (by omega)⟩
      · have e : i = data.length := by omega
        rw [e] at hroot
        refine ⟨_, Step.waitall s hroot ?_⟩
        intro w hw1 hw2 _
        have := (hB w hw1 hw2).2
        omega
    · push_neg at hB
      obtain ⟨w, hw1, hw2, hnB⟩ := hB
      obtain ⟨_, hc⟩ := h4 w hw1 hw2
      rcases hc with ⟨c1, _, _⟩ | ⟨c1, c2, _⟩ | ⟨c1, _, d, c3, c4⟩ | ⟨⟨ic, c1⟩, _, _⟩
      · exact ⟨_, Step.announce s w ⟨hw1, hw2⟩ c1⟩
      · exact absurd c2 (hnB c1)
      · exact ⟨_, Step.receive_task s w ⟨hw1, hw2⟩ d [] c1 c3 c4⟩
      · exact ⟨_, Step.finish s w ⟨hw1, hw2⟩ ic c1⟩
  | stopping j =>
    obtain ⟨h1, h2, _, h4⟩ := hS j hroot
    rcases Nat.lt_or_ge j world_size with hlt | hge
    · exact Or.inr ⟨_, Step.stop_send s j hroot hlt⟩
    · have e : j = world_size := by omega
      subst e
      by_cases hT : ∀ w : Nat, 1 ≤ w → w < j → s.worker w = WorkerPc.terminated
      · left
        refine ⟨hroot, ?_⟩
        intro w hw1 hw2
        obtain ⟨_, _, _, a4⟩ := h4 w hw1 hw2
        rcases a4 hw2 with ⟨c1, _⟩ | ⟨c1, c2⟩
        · rw [hT w hw1 hw2] at c1; cases c1
        · exact ⟨c1, c2⟩
      · right
        push_neg at hT
        obtain ⟨w, hw1, hw2, hnT⟩ := hT
        obtain ⟨_, _, _, a4⟩ := h4 w hw1 hw2
        rcases a4 hw2 with ⟨c1, c2⟩ | ⟨c1, _⟩
        · exact ⟨_, Step.receive_stop s w ⟨hw1, hw2⟩ stop [] c1 c2 isStop_stop⟩
        · exact absurd c1 hnT

/-- At every send of the root the destination is blocked in `MPI_Recv` with an
empty inbox; in the dispatch loop its slot is armed and its one readiness
message has arrived. -/
theorem send_to_waiting (world_size : Nat) (data : List Composition) (s s' : Sys)
    (hinv : Inv world_size data s) (hstep : Step world_size data s s')
    (p : Composition × Nat) (hp : s'.sent = s.sent ++ [p]) :
    s.worker p.2 = WorkerPc.awaiting ∧ s.inbox p.2 = []
      ∧ (∀ i : Nat, s.root = RootPc.dispatch i →
          s.armed p.2 = true ∧ s.pending p.2 = 1 ∧ data.get? i = some p.1) := by
  obtain ⟨hD, hS⟩ := hinv
  have hno : s.sent ≠ s.sent ++ [p] := by
    intro h
    have := congrArg List.length h
    simp at this
  cases hstep with
  | announce w hw h => exact absurd hp hno
  | receive_stop w hw ic rest h hin hstop => exact absurd hp hno
  | receive_task w hw ic rest h hin hstop => exact absurd hp hno
  | finish w hw ic h => exact absurd hp hno
  | dispatch w hw i d hr hd ha hpend =>
    have e : p = (d, w) := by
      have := List.append_cancel_left hp
      simp only [List.cons.injEq, and_true] at this
      exact this.symm
    subst e
    obtain ⟨_, _, _, h4⟩ := hD i hr
    obtain ⟨_, hc⟩ := h4 w hw.1 hw.2
    rcases hc with ⟨_, c2, _⟩ | ⟨c1, c2, c3⟩ | ⟨_, c2, _⟩ | ⟨_, c2, _⟩
    · omega
    · refine ⟨c1, c3, ?_⟩
      intro i' hi'
      rw [hr] at hi'
      injection hi' with e'
      subst e'
      exact ⟨ha, c2, hd⟩
    · omega
    · omega
  | waitall hr hall => exact absurd hp hno
  | stop_send j hr hj =>
    have e : p = (stop, j) := by
      have := List.append_cancel_left hp
      simp only [List.cons.injEq, and_true] at this
      exact this.symm
    subst e
    obtain ⟨h1, _, _, h4⟩ := hS j hr
    obtain ⟨_, _, a3, _⟩ := h4 j h1 hj
    obtain ⟨c1, c2⟩ := a3 (le_refl j)
    refine ⟨c1, c2, ?_⟩
    intro i hi
    rw [hr] at hi
    cases hi

/-! ### A batch with a negative field 0 -/

theorem icNeg_isStop : isStop icNeg := by
  unfold isStop icNeg
  norm_num

theorem icA_not_isStop : ¬ isStop icA := by
  unfold isStop icA
  norm_num

/-- C7, as stated, fails: with one worker and the batch `[icNeg, icA]`, whose
first record has field 0 = -1, the system reaches a state in which no rank can
move although the run is not over: the worker has taken `icNeg` for the stop
signal and left its loop, the root is blocked in the `MPI_Waitany` for row 1,
`icA` has not been sent to any worker and the stop record has not been sent. -/
theorem negative_marker_blocks_root :
    ∃ s : Sys, Reach 2 [icNeg, icA] s
      ∧ (∀ s' : Sys, ¬ Step 2 [icNeg, icA] s s')
      ∧ ¬ Final 2 s
      ∧ s.root = RootPc.dispatch 1
      ∧ s.sent = [(icNeg, 1)]
      ∧ s.worker 1 = WorkerPc.terminated := by
  have st1 : Step 2 [icNeg, icA] (sysInit 2) _ := Step.announce (sysInit 2) 1
    ⟨le_refl 1, by norm_num⟩ rfl
  have st2 : Step 2 [icNeg, icA] _ _ := Step.dispatch _ 1
    ⟨le_refl 1, by norm_num⟩ 0 icNeg
    (show ({ sysInit 2 with
        pending := Function.update (sysInit 2).pending 1 ((sysInit 2).pending 1 + 1)
        worker := Function.update (sysInit 2).worker 1 WorkerPc.awaiting } : Sys).root
      = RootPc.dispatch 0 from rfl) rfl (by simp [sysInit]) (by simp [sysInit])
  have st3 : Step 2 [icNeg, icA] _ _ := Step.receive_stop _ 1
    ⟨le_refl 1, by norm_num⟩ icNeg []
    (show ({ root := RootPc.dispatch (0 + 1)
             armed := Function.update (Function.update (sysInit 2).armed 1 false) 1 true
             pending := Function.update
               (Function.update (sysInit 2).pending 1 ((sysInit 2).pending 1 + 1)) 1
               (Function.update (sysInit 2).pending 1 ((sysInit 2).pending 1 + 1) 1 - 1)
             inbox := Function.update (sysInit 2).inbox 1 ((sysInit 2).inbox 1 ++ [icNeg])
             worker := Function.update (sysInit 2).worker 1 WorkerPc.awaiting
             sent := (sysInit 2).sent ++ [(icNeg, 1)] } : Sys).worker 1 = WorkerPc.awaiting
      from by simp)
    (by simp [sysInit]) icNeg_isStop
  refine ⟨_, Relation.ReflTransGen.tail (Relation.ReflTransGen.tail
    (Relation.ReflTransGen.tail Relation.ReflTransGen.refl st1) st2) st3, ?_, ?_, rfl, rfl,
    by simp⟩
  · intro s' hstep
    cases hstep with
    | announce w hw h =>
      obtain rfl : w = 1 := by omega
      simp at h
    | receive_stop w hw ic rest h hin hstop =>
      obtain rfl : w = 1 := by omega
      simp at h
    | receive_task w hw ic rest h hin hstop =>
      obtain rfl : w = 1 := by omega
      simp at h
    | finish w hw ic h =>
      obtain rfl : w = 1 := by omega
      simp at h
    | dispatch w hw i d hr hd ha hp =>
      obtain rfl : w = 1 := by omega
      simp [sysInit] at hp
    | waitall hr hall =>
      simp at hr
    | stop_send j hr hj =>
      simp at hr
  · intro hfin
    have := hfin.1
    simp at this

/-- From every state the system can reach, the end can be reached. -/
theorem reach_final (world_size : Nat) (data : List Composition) (hW : 2 ≤ world_size)
    (hdata : ∀ d ∈ data, ¬ isStop d) (n : Nat) :
    ∀ s : Sys, stepsLeft world_size data s = n → Reach world_size data s →
      ∃ s' : Sys, Reach world_size data s' ∧ Final world_size s' := by
  induction n using Nat.strong_induction_on with
  | _ n ih =>
    intro s hn hs
    rcases progress world_size data hW s
      (inv_reach world_size data (by omega) hdata s hs) with hfin | ⟨s1, hstep⟩
    · exact ⟨s, hs, hfin⟩
    · have hlt := step_decreases world_size data s s1 hstep
      rw [hn] at hlt
      exact ih _ hlt s1 rfl (Relation.ReflTransGen.tail hs hstep)

/-- C7, amended: for every batch none of whose records has a negative field 0,
every number `world_size - 1 >= 1` of workers and every order in which the
ranks move, (1) every step lowers `stepsLeft`, so the run is finite, and
(2) no state short of the end is blocked, so the run reaches the end; (3) while the root is in its
dispatch loop at row `i` it has sent rows `0 .. i-1`, each once, in batch
order, each to a worker rank, and nothing else; (4) every send of the root
goes to a worker blocked in `MPI_Recv` with nothing queued, and a batch row
goes to a worker whose slot was armed and whose readiness message had
arrived; (5) while the root is in its stop loop at rank `j` all rows have been
sent, followed by the stop record to the ranks `1 .. j-1` once each, and the
ranks from `j` on have finished their tasks and wait in `MPI_Recv`, their last
readiness message taken by `MPI_Waitall`; (6) at the end the root has sent the
batch and then the stop record once to each worker, and every worker has left
its loop; (7) a worker takes a record for the stop signal exactly when its
field 0 is negative. -/
theorem dispatcher_protocol (world_size : Nat) (data : List Composition)
    (runmelts : Composition → Option (Melts × Int))
    (hW : 2 ≤ world_size) (hdata : ∀ d ∈ data, ¬ d 0 < 0) :
    (∀ s s' : Sys, Step world_size data s s' →
        stepsLeft world_size data s' < stepsLeft world_size data s)
    ∧ ((∀ s : Sys, Reach world_size data s →
          Final world_size s ∨ ∃ s' : Sys, Step world_size data s s')
        ∧ ∃ s : Sys, Reach world_size data s ∧ Final world_size s)
    ∧ (∀ (s : Sys) (i : Nat), Reach world_size data s → s.root = RootPc.dispatch i →
        i ≤ data.length ∧ s.sent.map Prod.fst = data.take i
          ∧ ∀ p ∈ s.sent, 1 ≤ p.2 ∧ p.2 < world_size)
    ∧ (∀ (s s' : Sys) (p : Composition × Nat), Reach world_size data s →
        Step world_size data s s' → s'.sent = s.sent ++ [p] →
        s.worker p.2 = WorkerPc.awaiting ∧ s.inbox p.2 = []
          ∧ (∀ i : Nat, s.root = RootPc.dispatch i →
              s.armed p.2 = true ∧ s.pending p.2 = 1 ∧ data.get? i = some p.1))
    ∧ (∀ (s : Sys) (j : Nat), Reach world_size data s → s.root = RootPc.stopping j →
        (∃ pre : List (Composition × Nat),
          s.sent = pre ++ (List.range' 1 (j - 1)).map (fun w => (stop, w))
            ∧ pre.map Prod.fst = data ∧ ∀ p ∈ pre, 1 ≤ p.2 ∧ p.2 < world_size)
        ∧ ∀ w : Nat, j ≤ w → w < world_size →
            s.worker w = WorkerPc.awaiting ∧ s.inbox w = [] ∧ s.pending w = 0
              ∧ s.armed w = false)
    ∧ (∀ s : Sys, Reach world_size data s → Final world_size s →
        (∃ pre : List (Composition × Nat),
          s.sent = pre ++ (List.range' 1 (world_size - 1)).map (fun w => (stop, w))
            ∧ pre.map Prod.fst = data ∧ ∀ p ∈ pre, 1 ≤ p.2 ∧ p.2 < world_size)
        ∧ ∀ w : Nat, 1 ≤ w → w < world_size →
            s.worker w = WorkerPc.terminated ∧ s.inbox w = [])
    ∧ (∀ ic : Composition, workerTask runmelts ic = WorkerOutcome.stop ↔ ic 0 < 0) := by
  have hW1 : 1 ≤ world_size := by omega
  have hinv : ∀ s : Sys, Reach world_size data s → Inv world_size data s :=
    inv_reach world_size data hW1 hdata
  refine ⟨step_decreases world_size data, ?_, ?_, ?_, ?_, ?_, workerTask_stop_iff runmelts⟩
  · refine ⟨fun s hs => progress world_size data hW s (hinv s hs), ?_⟩
    exact reach_final world_size data hW hdata _ (sysInit world_size) rfl
      Relation.ReflTransGen.refl
  · intro s i hs hi
    obtain ⟨h1, h2, h3, _⟩ := (hinv s hs).1 i hi
    exact ⟨h1, h2, h3⟩
  · intro s s' p hs hstep hp
    exact send_to_waiting world_size data s s' (hinv s hs) hstep p hp
  · intro s j hs hj
    obtain ⟨h1, _, h3, h4⟩ := (hinv s hs).2 j hj
    refine ⟨h3, ?_⟩
    intro w hw1 hw2
    obtain ⟨a1, a2, a3, _⟩ := h4 w (by omega) hw2
    exact ⟨(a3 hw1).1, (a3 hw1).2, a2, a1⟩
  · intro s hs hfin
    obtain ⟨_, _, h3, _⟩ := (hinv s hs).2 world_size hfin.1
    exact ⟨h3, hfin.2⟩

theorem dispatcher_protocol_witness :
    Final 3 (sysInit 3) ∨ ∃ s' : Sys, Step 3 [icA, icA, icA, icA, icA] (sysInit 3) s' :=
  (dispatcher_protocol 3 [icA, icA, icA, icA, icA] (fun _ => none) (by norm_num)
    (fun d hd => by
      have e : d = icA := by simpa using hd
      rw [e]
      exact icA_not_isStop)).2.1.1 (sysInit 3) Relation.ReflTransGen.refl

end MeltsTApatite
